import Mathlib

/-!
Verification development for the scene geometry compiler
(`src/scripts/services/scene-builder.js`).

JavaScript numbers are IEEE doubles; we model them as exact rationals `ℚ`.
Comparisons that the source makes against `Math.hypot(...)` (a square root)
are expressed here by comparing squares, which is an exact reformulation
over an ordered field: for `a, b ≥ 0`, `a < b ↔ a^2 < b^2`.
JavaScript `NaN` (arising only in the SVG-path mini-parser, where
`parseFloat` is applied to a token that is not a number) is modeled by
`Option ℚ` with `none` playing the role of `NaN`.
-/

namespace SceneBuilder

/-- A directed line segment `[x1,y1,x2,y2]`, as used throughout the scene
builder for wall, door and shape edges. -/
structure Edge (α : Type) where
  x1 : α
  y1 : α
  x2 : α
  y2 : α
deriving DecidableEq, Repr

/-- `_pointOnSegment(px, py, ax, ay, bx, by, tol)`: does `(px,py)` lie on the
segment `(ax,ay)-(bx,by)` within perpendicular tolerance `tol`?
The source computes `lenAB = Math.hypot(bx-ax, by-ay)` and compares
`lenAB < 0.1` and `|cross|/lenAB > tol`; we compare the squares instead
(`lenAB^2 = len2` exactly), and `|cross|/lenAB > tol` holds exactly when
`tol < 0` or `cross^2 > tol^2 * len2`. -/
def pointOnSegment (px py ax ay bx b2y tol : ℚ) : Bool :=
  let len2 := (bx - ax) ^ 2 + (b2y - ay) ^ 2
  if len2 < 1 / 100 then false
  else
    let cross := (px - ax) * (b2y - ay) - (py - ay) * (bx - ax)
    if tol < 0 ∨ cross ^ 2 > tol ^ 2 * len2 then false
    else
      let dot := ((px - ax) * (bx - ax) + (py - ay) * (b2y - ay)) / len2
      decide (-1 / 100 ≤ dot ∧ dot ≤ 101 / 100)

/-- `_projectParam(px, py, ax, ay, bx, by)`: the 0–1 projection parameter of
`(px,py)` along the segment `(ax,ay)-(bx,by)`; `0` for near-degenerate
segments (`len2 < 0.01`). -/
def projectParam (px py ax ay bx b2y : ℚ) : ℚ :=
  let dx := bx - ax
  let dy := b2y - ay
  let len2 := dx * dx + dy * dy
  if len2 < 1 / 100 then 0
  else ((px - ax) * dx + (py - ay) * dy) / len2

/-- A door's projection interval `{t1, t2}` on a wall. -/
structure Iv where
  t1 : ℚ
  t2 : ℚ
deriving DecidableEq, Repr

/-- The overlap-collection loop of `_splitWallForDoors` (lines 434–445):
for each door whose two endpoints both lie on the wall within `tol`,
record the ordered and `[0,1]`-clamped projection interval. -/
def doorOverlaps (wall : Edge ℚ) (doors : List (Edge ℚ)) (tol : ℚ) : List Iv :=
  doors.filterMap fun d =>
    if pointOnSegment d.x1 d.y1 wall.x1 wall.y1 wall.x2 wall.y2 tol &&
        pointOnSegment d.x2 d.y2 wall.x1 wall.y1 wall.x2 wall.y2 tol then
      let t1 := projectParam d.x1 d.y1 wall.x1 wall.y1 wall.x2 wall.y2
      let t2 := projectParam d.x2 d.y2 wall.x1 wall.y1 wall.x2 wall.y2
      let lo := if t1 > t2 then t2 else t1
      let hi := if t1 > t2 then t1 else t2
      some ⟨max 0 lo, min 1 hi⟩
    else none

/-- `overlaps.sort((a, b) => a.t1 - b.t1)`: a stable sort by `t1`
(ECMAScript sorts are stable; insertion sort is a stable sort). -/
def sortIvs (l : List Iv) : List Iv :=
  List.insertionSort (fun a b => a.t1 ≤ b.t1) l

/-- The merge loop of `_splitWallForDoors` (lines 451–459) with `acc` playing
the role of the mutable `merged[merged.length - 1]`. -/
def mergeLoop (acc : Iv) : List Iv → List Iv
  | [] => [acc]
  | iv :: rest =>
    if iv.t1 ≤ acc.t2 + 1 / 1000 then mergeLoop ⟨acc.t1, max acc.t2 iv.t2⟩ rest
    else acc :: mergeLoop iv rest

/-- Merge sorted door ranges that overlap or are within `0.001` of each other. -/
def mergeIvs : List Iv → List Iv
  | [] => []
  | iv :: rest => mergeLoop iv rest

/-- The merged door ranges computed by `_splitWallForDoors` for a wall. -/
def mergedOf (wall : Edge ℚ) (doors : List (Edge ℚ)) (tol : ℚ) : List Iv :=
  mergeIvs (sortIvs (doorOverlaps wall doors tol))

/-- The gap-emission loop of `_splitWallForDoors` (lines 461–478):
`lerp t = (ax + dx*t, ay + dy*t)`; emit a sub-segment for every gap longer
than `0.001` before or between merged ranges, and a final sub-segment ending
at `(bx, by)` when the cursor stops short of `1 - 0.001`. -/
def emitGaps (wall : Edge ℚ) (cursor : ℚ) : List Iv → List (Edge ℚ)
  | [] =>
    if cursor < 1 - 1 / 1000 then
      [⟨wall.x1 + (wall.x2 - wall.x1) * cursor, wall.y1 + (wall.y2 - wall.y1) * cursor,
        wall.x2, wall.y2⟩]
    else []
  | gap :: rest =>
    (if gap.t1 > cursor + 1 / 1000 then
      [⟨wall.x1 + (wall.x2 - wall.x1) * cursor, wall.y1 + (wall.y2 - wall.y1) * cursor,
        wall.x1 + (wall.x2 - wall.x1) * gap.t1, wall.y1 + (wall.y2 - wall.y1) * gap.t1⟩]
     else []) ++ emitGaps wall gap.t2 rest

/-- `_splitWallForDoors(wall, doors, tol = 6)`: split a wall segment into
sub-segments that leave gaps where doors are. -/
def splitWallForDoors (wall : Edge ℚ) (doors : List (Edge ℚ)) (tol : ℚ) : List (Edge ℚ) :=
  let overlaps := doorOverlaps wall doors tol
  if overlaps.isEmpty then [wall]
  else emitGaps wall 0 (mergeIvs (sortIvs overlaps))

/-- The point of the wall at parameter `t`, and the sub-segment of the wall
between parameters `s` and `e` (the `lerp` of the source). -/
def lerpE (wall : Edge ℚ) (s e : ℚ) : Edge ℚ :=
  ⟨wall.x1 + (wall.x2 - wall.x1) * s, wall.y1 + (wall.y2 - wall.y1) * s,
   wall.x1 + (wall.x2 - wall.x1) * e, wall.y1 + (wall.y2 - wall.y1) * e⟩

/-- Squared Euclidean length of an edge. -/
def len2E (e : Edge ℚ) : ℚ :=
  (e.x2 - e.x1) ^ 2 + (e.y2 - e.y1) ^ 2

/-- Euclidean length of an edge (the `Math.hypot` of its deltas). -/
noncomputable def lengthE (e : Edge ℚ) : ℝ :=
  Real.sqrt ((len2E e : ℚ) : ℝ)

/-- C1 helper: a door with no match contributes nothing to `doorOverlaps`. -/
theorem doorOverlaps_nil (wall : Edge ℚ) (doors : List (Edge ℚ)) (tol : ℚ)
    (h : ∀ d ∈ doors,
      ¬(pointOnSegment d.x1 d.y1 wall.x1 wall.y1 wall.x2 wall.y2 tol = true ∧
        pointOnSegment d.x2 d.y2 wall.x1 wall.y1 wall.x2 wall.y2 tol = true)) :
    doorOverlaps wall doors tol = [] := by
  unfold doorOverlaps
  rw [List.filterMap_eq_nil_iff]
  intro d hd
  have hnot := h d hd
  have hcond : ¬((pointOnSegment d.x1 d.y1 wall.x1 wall.y1 wall.x2 wall.y2 tol &&
      pointOnSegment d.x2 d.y2 wall.x1 wall.y1 wall.x2 wall.y2 tol) = true) := by
    intro hc
    exact hnot (Bool.and_eq_true _ _ ▸ hc)
  rw [if_neg hcond]

/-- C1: a wall on which no door has both endpoints within the matching
tolerance splits into exactly one sub-segment equal to the input wall edge. -/
theorem splitWall_no_door (wall : Edge ℚ) (doors : List (Edge ℚ)) (tol : ℚ)
    (h : ∀ d ∈ doors,
      ¬(pointOnSegment d.x1 d.y1 wall.x1 wall.y1 wall.x2 wall.y2 tol = true ∧
        pointOnSegment d.x2 d.y2 wall.x1 wall.y1 wall.x2 wall.y2 tol = true)) :
    splitWallForDoors wall doors tol = [wall] := by
  unfold splitWallForDoors
  rw [doorOverlaps_nil wall doors tol h]
  rfl

/-- C1 witness: a wall with one door that is 20 units away (outside the
tolerance 6) is returned unchanged. -/
theorem splitWall_no_door_witness :
    splitWallForDoors ⟨0, 0, 10, 0⟩ [⟨0, 20, 10, 20⟩] 6 = [⟨0, 0, 10, 0⟩] :=
  splitWall_no_door ⟨0, 0, 10, 0⟩ [⟨0, 20, 10, 20⟩] 6 (by norm_num [pointOnSegment])

/-- A point given on the wall line by its parameter `t` (within the projection
clamp allowance `[-0.01, 1.01]`) passes the `_pointOnSegment` test for any
nonnegative tolerance, provided the wall is not near-degenerate. -/
theorem pointOnSegment_on (ax ay bx b2y tol t : ℚ)
    (hW : 1 / 100 ≤ (bx - ax) ^ 2 + (b2y - ay) ^ 2) (htol : 0 ≤ tol)
    (h1 : -1 / 100 ≤ t) (h2 : t ≤ 101 / 100) :
    pointOnSegment (ax + (bx - ax) * t) (ay + (b2y - ay) * t) ax ay bx b2y tol = true := by
  have hpos : (0 : ℚ) < (bx - ax) ^ 2 + (b2y - ay) ^ 2 := lt_of_lt_of_le (by norm_num) hW
  simp only [pointOnSegment]
  rw [if_neg (not_lt.mpr hW)]
  have hB : ¬(tol < 0 ∨
      ((ax + (bx - ax) * t - ax) * (b2y - ay) - (ay + (b2y - ay) * t - ay) * (bx - ax)) ^ 2 >
        tol ^ 2 * ((bx - ax) ^ 2 + (b2y - ay) ^ 2)) := by
    push_neg
    refine ⟨htol, ?_⟩
    have hc : ((ax + (bx - ax) * t - ax) * (b2y - ay) - (ay + (b2y - ay) * t - ay) * (bx - ax)) =
        0 := by ring
    rw [hc]
    calc (0 : ℚ) ^ 2 = 0 := by norm_num
    _ ≤ tol ^ 2 * ((bx - ax) ^ 2 + (b2y - ay) ^ 2) := by positivity
  rw [if_neg hB]
  have hdot : ((ax + (bx - ax) * t - ax) * (bx - ax) + (ay + (b2y - ay) * t - ay) * (b2y - ay)) /
      ((bx - ax) ^ 2 + (b2y - ay) ^ 2) = t := by
    rw [div_eq_iff (ne_of_gt hpos)]
    ring
  rw [hdot, decide_eq_true_eq]
  exact ⟨h1, h2⟩

/-- `_projectParam` recovers the parameter of a point given on the wall line,
provided the wall is not near-degenerate. -/
theorem projectParam_on (ax ay bx b2y t : ℚ)
    (hW : 1 / 100 ≤ (bx - ax) ^ 2 + (b2y - ay) ^ 2) :
    projectParam (ax + (bx - ax) * t) (ay + (b2y - ay) * t) ax ay bx b2y = t := by
  have hW' : 1 / 100 ≤ (bx - ax) * (bx - ax) + (b2y - ay) * (b2y - ay) := by
    calc (1 : ℚ) / 100 ≤ (bx - ax) ^ 2 + (b2y - ay) ^ 2 := hW
    _ = (bx - ax) * (bx - ax) + (b2y - ay) * (b2y - ay) := by ring
  have hpos : (0 : ℚ) < (bx - ax) * (bx - ax) + (b2y - ay) * (b2y - ay) :=
    lt_of_lt_of_le (by norm_num) hW'
  simp only [projectParam]
  rw [if_neg (not_lt.mpr hW')]
  rw [div_eq_iff (ne_of_gt hpos)]
  ring

/-- Doors lying exactly on the wall, with parameters strictly inside `(0,1)`
in order, are collected by `doorOverlaps` as exactly their intervals. -/
theorem doorOverlaps_map (wall : Edge ℚ) (tol : ℚ) (ivs : List Iv)
    (hW : 1 / 100 ≤ (wall.x2 - wall.x1) ^ 2 + (wall.y2 - wall.y1) ^ 2) (htol : 0 ≤ tol)
    (hb : ∀ iv ∈ ivs, 0 < iv.t1 ∧ iv.t1 ≤ iv.t2 ∧ iv.t2 < 1) :
    doorOverlaps wall (ivs.map fun iv => lerpE wall iv.t1 iv.t2) tol = ivs := by
  induction ivs with
  | nil => rfl
  | cons iv rest ih =>
    obtain ⟨hb1, hb12, hb2⟩ := hb iv (List.mem_cons_self _ _)
    have hrest := fun x hx => hb x (List.mem_cons_of_mem _ hx)
    unfold doorOverlaps
    rw [List.map_cons, List.filterMap_cons]
    have hp1 : pointOnSegment (lerpE wall iv.t1 iv.t2).x1 (lerpE wall iv.t1 iv.t2).y1
        wall.x1 wall.y1 wall.x2 wall.y2 tol = true := by
      simp only [lerpE]
      exact pointOnSegment_on _ _ _ _ _ _ hW htol (by linarith) (by linarith)
    have hp2 : pointOnSegment (lerpE wall iv.t1 iv.t2).x2 (lerpE wall iv.t1 iv.t2).y2
        wall.x1 wall.y1 wall.x2 wall.y2 tol = true := by
      simp only [lerpE]
      exact pointOnSegment_on _ _ _ _ _ _ hW htol (by linarith) (by linarith)
    rw [hp1, hp2]
    simp only [Bool.and_self, if_true]
    have hq1 : projectParam (lerpE wall iv.t1 iv.t2).x1 (lerpE wall iv.t1 iv.t2).y1
        wall.x1 wall.y1 wall.x2 wall.y2 = iv.t1 := by
      simp only [lerpE]
      exact projectParam_on _ _ _ _ _ hW
    have hq2 : projectParam (lerpE wall iv.t1 iv.t2).x2 (lerpE wall iv.t1 iv.t2).y2
        wall.x1 wall.y1 wall.x2 wall.y2 = iv.t2 := by
      simp only [lerpE]
      exact projectParam_on _ _ _ _ _ hW
    rw [hq1, hq2]
    rw [if_neg (not_lt.mpr hb12), if_neg (not_lt.mpr hb12)]
    rw [max_eq_right (le_of_lt hb1), min_eq_right (le_of_lt hb2)]
    have : doorOverlaps wall (rest.map fun iv => lerpE wall iv.t1 iv.t2) tol = rest :=
      ih hrest
    unfold doorOverlaps at this
    rw [this]

/-- The separation condition of C3: door intervals in order, each more than
`0.001` after the previous interval (and after parameter `c`), with the last
one ending before `0.999`. -/
def sepChain (c : ℚ) : List Iv → Bool
  | [] => decide (c < 999 / 1000)
  | iv :: rest => decide (c + 1 / 1000 < iv.t1) && decide (iv.t1 ≤ iv.t2) && sepChain iv.t2 rest

theorem sepChain_lb {c : ℚ} {ivs : List Iv} (h : sepChain c ivs = true) :
    ∀ iv ∈ ivs, c < iv.t1 := by
  induction ivs generalizing c with
  | nil => intro iv hm; cases hm
  | cons iv rest ih =>
    simp only [sepChain, Bool.and_eq_true, decide_eq_true_eq] at h
    obtain ⟨⟨h1, h12⟩, hrest⟩ := h
    intro x hx
    rcases List.mem_cons.mp hx with rfl | hx
    · linarith
    · have := ih hrest x hx
      linarith

theorem sepChain_bounds {c : ℚ} {ivs : List Iv} (h : sepChain c ivs = true) (hc : 0 ≤ c) :
    c < 999 / 1000 ∧ ∀ iv ∈ ivs, 1 / 1000 < iv.t1 ∧ iv.t1 ≤ iv.t2 ∧ iv.t2 < 999 / 1000 := by
  induction ivs generalizing c with
  | nil =>
    simp only [sepChain, decide_eq_true_eq] at h
    exact ⟨h, by intro iv hm; cases hm⟩
  | cons iv rest ih =>
    simp only [sepChain, Bool.and_eq_true, decide_eq_true_eq] at h
    obtain ⟨⟨h1, h12⟩, hrest⟩ := h
    have ht2 : 0 ≤ iv.t2 := by linarith
    obtain ⟨hend, hmem⟩ := ih hrest ht2
    refine ⟨by linarith, ?_⟩
    intro x hx
    rcases List.mem_cons.mp hx with rfl | hx
    · exact ⟨by linarith, h12, hend⟩
    · exact hmem x hx

theorem sepChain_pairwise {c : ℚ} {ivs : List Iv} (h : sepChain c ivs = true) :
    List.Pairwise (fun a b : Iv => a.t1 ≤ b.t1) ivs := by
  induction ivs generalizing c with
  | nil => exact List.Pairwise.nil
  | cons iv rest ih =>
    simp only [sepChain, Bool.and_eq_true, decide_eq_true_eq] at h
    obtain ⟨⟨h1, h12⟩, hrest⟩ := h
    refine List.Pairwise.cons ?_ (ih hrest)
    intro b hb
    have := sepChain_lb hrest b hb
    linarith

theorem mergeLoop_sep {acc : Iv} {rest : List Iv} (h : sepChain acc.t2 rest = true) :
    mergeLoop acc rest = acc :: rest := by
  induction rest generalizing acc with
  | nil => rfl
  | cons iv r ih =>
    simp only [sepChain, Bool.and_eq_true, decide_eq_true_eq] at h
    obtain ⟨⟨h1, h12⟩, hrest⟩ := h
    unfold mergeLoop
    rw [if_neg (by linarith)]
    rw [ih hrest]

theorem mergeIvs_sep {c : ℚ} {ivs : List Iv} (h : sepChain c ivs = true) :
    mergeIvs ivs = ivs := by
  cases ivs with
  | nil => rfl
  | cons iv rest =>
    simp only [sepChain, Bool.and_eq_true, decide_eq_true_eq] at h
    exact mergeLoop_sep h.2

theorem emitGaps_sep (wall : Edge ℚ) {c : ℚ} {ivs : List Iv}
    (h : sepChain c ivs = true) (hc : 0 ≤ c) :
    (emitGaps wall c ivs).length = ivs.length + 1 := by
  induction ivs generalizing c with
  | nil =>
    simp only [sepChain, decide_eq_true_eq] at h
    unfold emitGaps
    rw [if_pos (by linarith)]
    rfl
  | cons iv rest ih =>
    simp only [sepChain, Bool.and_eq_true, decide_eq_true_eq] at h
    obtain ⟨⟨h1, h12⟩, hrest⟩ := h
    unfold emitGaps
    rw [if_pos (by linarith)]
    rw [List.length_append]
    have := ih hrest (by linarith)
    rw [this]
    simp [List.length_cons]
    omega

/-- Every door matched to the wall within tolerance contributes exactly one
projection interval, so `doorOverlaps` preserves the count. -/
theorem doorOverlaps_length (wall : Edge ℚ) (doors : List (Edge ℚ)) (tol : ℚ)
    (hmatch : ∀ d ∈ doors,
      pointOnSegment d.x1 d.y1 wall.x1 wall.y1 wall.x2 wall.y2 tol = true ∧
      pointOnSegment d.x2 d.y2 wall.x1 wall.y1 wall.x2 wall.y2 tol = true) :
    (doorOverlaps wall doors tol).length = doors.length := by
  induction doors with
  | nil => rfl
  | cons d rest ih =>
    obtain ⟨h1, h2⟩ := hmatch d (List.mem_cons_self _ _)
    have hrest := fun x hx => hmatch x (List.mem_cons_of_mem _ hx)
    unfold doorOverlaps
    rw [List.filterMap_cons, h1, h2]
    simp only [Bool.and_self, if_true]
    have htail : (doorOverlaps wall rest tol).length = rest.length := ih hrest
    unfold doorOverlaps at htail
    simp only [List.length_cons, htail]

/-- C3 (amended): `k` doors matched to the wall within tolerance (both
endpoints pass the point-on-segment test) whose projection intervals, sorted
by start parameter, are pairwise separated by more than `0.001` — from each
other and from the ends of the wall — split the wall into exactly `k + 1`
non-door sub-segments. -/
theorem splitWall_separated (wall : Edge ℚ) (doors : List (Edge ℚ)) (tol : ℚ)
    (hmatch : ∀ d ∈ doors,
      pointOnSegment d.x1 d.y1 wall.x1 wall.y1 wall.x2 wall.y2 tol = true ∧
      pointOnSegment d.x2 d.y2 wall.x1 wall.y1 wall.x2 wall.y2 tol = true)
    (hsep : sepChain 0 (sortIvs (doorOverlaps wall doors tol)) = true) :
    (splitWallForDoors wall doors tol).length = doors.length + 1 := by
  have hlen : (doorOverlaps wall doors tol).length = doors.length :=
    doorOverlaps_length wall doors tol hmatch
  unfold splitWallForDoors
  cases ho : doorOverlaps wall doors tol with
  | nil =>
    rw [ho] at hlen
    simp only [List.length_nil] at hlen
    simp [← hlen]
  | cons iv rest =>
    rw [ho] at hsep hlen
    simp only [List.isEmpty_cons, Bool.false_eq_true, if_false]
    rw [mergeIvs_sep hsep]
    rw [emitGaps_sep wall hsep le_rfl]
    simp only [sortIvs, List.length_insertionSort]
    rw [hlen]

/-- C3 counterexample: one door strictly inside `(0,1)` (interval
`[0.0005, 0.5]`) is a single non-overlapping door, so the claim predicts
`1 + 1 = 2` sub-segments, but the splitter emits only `1` because the gap
before `t = 0.0005` is dropped by the `0.001` threshold. -/
theorem splitWall_interior_door_cex :
    (splitWallForDoors ⟨0, 0, 10, 0⟩ [⟨1 / 200, 0, 5, 0⟩] 6).length = 1 := by
  have h1 : doorOverlaps ⟨0, 0, 10, 0⟩ [⟨1 / 200, 0, 5, 0⟩] 6 = [⟨1 / 2000, 1 / 2⟩] := by
    norm_num [doorOverlaps, pointOnSegment, projectParam, List.filterMap_cons]
  unfold splitWallForDoors
  rw [h1]
  have h2 : sortIvs [⟨1 / 2000, 1 / 2⟩] = [⟨1 / 2000, 1 / 2⟩] := by
    simp [sortIvs]
  have h3 : mergeIvs [⟨1 / 2000, 1 / 2⟩] = [⟨1 / 2000, 1 / 2⟩] := by
    simp [mergeIvs, mergeLoop]
  simp only [h2, h3, List.isEmpty_cons, Bool.false_eq_true, if_false]
  norm_num [emitGaps]

/-- C3 witness: two tolerance-matched separated doors on a wall of length 10
produce three sub-segments. -/
theorem splitWall_separated_witness :
    (splitWallForDoors ⟨0, 0, 10, 0⟩ [⟨5 / 2, 0, 5, 0⟩, ⟨15 / 2, 0, 8, 0⟩] 6).length =
      2 + 1 :=
  splitWall_separated ⟨0, 0, 10, 0⟩ [⟨5 / 2, 0, 5, 0⟩, ⟨15 / 2, 0, 8, 0⟩] 6
    (by
      intro d hd
      rcases List.mem_cons.mp hd with rfl | hd
      · constructor <;> norm_num [pointOnSegment]
      rcases List.mem_cons.mp hd with rfl | hd
      · constructor <;> norm_num [pointOnSegment]
      cases hd)
    (by
      have h1 : doorOverlaps ⟨0, 0, 10, 0⟩ [⟨5 / 2, 0, 5, 0⟩, ⟨15 / 2, 0, 8, 0⟩] 6 =
          [⟨1 / 4, 1 / 2⟩, ⟨3 / 4, 4 / 5⟩] := by
        norm_num [doorOverlaps, pointOnSegment, projectParam, List.filterMap_cons]
      rw [h1]
      have h2 : sortIvs ([⟨1 / 4, 1 / 2⟩, ⟨3 / 4, 4 / 5⟩] : List Iv) =
          [⟨1 / 4, 1 / 2⟩, ⟨3 / 4, 4 / 5⟩] := by
        simp only [sortIvs, List.insertionSort, List.orderedInsert]
        norm_num
      rw [h2]
      norm_num [sepChain])

theorem len2E_lerp (wall : Edge ℚ) (s e : ℚ) :
    len2E (lerpE wall s e) = (e - s) ^ 2 * len2E wall := by
  simp only [len2E, lerpE]
  ring

theorem lengthE_lerp (wall : Edge ℚ) (s e : ℚ) (h : s ≤ e) :
    lengthE (lerpE wall s e) = ((e - s : ℚ) : ℝ) * lengthE wall := by
  unfold lengthE
  rw [len2E_lerp]
  have hcast : (((e - s) ^ 2 * len2E wall : ℚ) : ℝ) =
      (((e - s : ℚ) : ℝ)) ^ 2 * ((len2E wall : ℚ) : ℝ) := by push_cast; ring
  rw [hcast, Real.sqrt_mul (sq_nonneg _), Real.sqrt_sq_eq_abs,
    abs_of_nonneg (by exact_mod_cast sub_nonneg.mpr h)]

/-- C2 (amended): a wall of length `L ≥ 0.1` with a single door lying exactly
on it, whose projection interval `[t1, t2]` keeps a margin of more than
`0.001` from both wall ends, splits into exactly the two non-door
sub-segments `[0, t1]` and `[t2, 1]`, whose combined length equals
`L - d` exactly (in particular, within `0.001·L`). -/
theorem splitWall_one_door (wall : Edge ℚ) (t1 t2 : ℚ)
    (hW : 1 / 100 ≤ (wall.x2 - wall.x1) ^ 2 + (wall.y2 - wall.y1) ^ 2)
    (h1 : 1 / 1000 < t1) (h12 : t1 ≤ t2) (h2 : t2 < 999 / 1000) :
    splitWallForDoors wall [lerpE wall t1 t2] 6 = [lerpE wall 0 t1, lerpE wall t2 1] ∧
    lengthE (lerpE wall 0 t1) + lengthE (lerpE wall t2 1) =
      lengthE wall - lengthE (lerpE wall t1 t2) ∧
    |lengthE (lerpE wall 0 t1) + lengthE (lerpE wall t2 1) -
      (lengthE wall - lengthE (lerpE wall t1 t2))| ≤ 1 / 1000 * lengthE wall := by
  have hov : doorOverlaps wall [lerpE wall t1 t2] 6 = [⟨t1, t2⟩] := by
    have hmap := doorOverlaps_map wall 6 [⟨t1, t2⟩] hW (by norm_num)
      (by
        intro iv hm
        rcases List.mem_singleton.mp hm with rfl
        exact ⟨by linarith, h12, by linarith⟩)
    simpa using hmap
  have l1 := lengthE_lerp wall 0 t1 (by linarith)
  have l2 := lengthE_lerp wall t2 1 (by linarith)
  have ld := lengthE_lerp wall t1 t2 h12
  refine ⟨?_, ?_, ?_⟩
  · unfold splitWallForDoors
    rw [hov]
    simp only [List.isEmpty_cons, Bool.false_eq_true, if_false]
    have hsort : sortIvs [⟨t1, t2⟩] = [⟨t1, t2⟩] := by simp [sortIvs]
    have hmerge : mergeIvs [⟨t1, t2⟩] = [⟨t1, t2⟩] := by simp [mergeIvs, mergeLoop]
    rw [hsort, hmerge]
    simp only [emitGaps]
    rw [if_pos (by linarith : (0 : ℚ) + 1 / 1000 < t1),
      if_pos (by linarith : t2 < 1 - 1 / 1000)]
    simp only [lerpE, List.cons_append, List.nil_append, List.cons.injEq, Edge.mk.injEq]
    repeat' apply And.intro
    all_goals ring_nf
  · rw [l1, l2, ld]
    push_cast
    ring
  · rw [l1, l2, ld]
    have habs : ((t1 - 0 : ℚ) : ℝ) * lengthE wall + ((1 - t2 : ℚ) : ℝ) * lengthE wall -
        (lengthE wall - ((t2 - t1 : ℚ) : ℝ) * lengthE wall) = 0 := by push_cast; ring
    rw [habs, abs_zero]
    have h0 : 0 ≤ lengthE wall := Real.sqrt_nonneg _
    positivity

/-- C2 counterexample, two parts.  (i) The door `(5,3)-(5,-3)` is
perpendicular to the wall `(0,0)-(10,0)`; both endpoints pass the tolerance-6
test and project to the centered interval `[0.5, 0.5]`, so the wall splits
into two sub-segments of combined length `10`, while `L - d = 10 - 6 = 4`:
the `0.001·L` error bound fails.  (ii) The door `(0.005,0)-(9.995,0)` lies
exactly on the wall with centered interval `[0.0005, 0.9995]` strictly inside
`(0,1)`, yet the splitter returns zero sub-segments instead of two, because
both end gaps fall below the `0.001` threshold. -/
theorem splitWall_one_door_cex :
    splitWallForDoors ⟨0, 0, 10, 0⟩ [⟨5, 3, 5, -3⟩] 6 = [⟨0, 0, 5, 0⟩, ⟨5, 0, 10, 0⟩] ∧
    lengthE ⟨0, 0, 5, 0⟩ + lengthE ⟨5, 0, 10, 0⟩ = 10 ∧
    lengthE ⟨0, 0, 10, 0⟩ = 10 ∧
    lengthE ⟨5, 3, 5, -3⟩ = 6 ∧
    ¬(|(10 : ℝ) - (10 - 6)| ≤ 1 / 1000 * 10) ∧
    splitWallForDoors ⟨0, 0, 10, 0⟩ [⟨1 / 200, 0, 1999 / 200, 0⟩] 6 = [] := by
  have sqrt_eval : ∀ q : ℚ, ∀ r : ℝ, 0 ≤ r → ((q : ℚ) : ℝ) = r ^ 2 →
      Real.sqrt ((q : ℚ) : ℝ) = r := by
    intro q r hr hq
    rw [hq]
    exact Real.sqrt_sq hr
  refine ⟨?_, ?_, ?_, ?_, ?_, ?_⟩
  · have h1 : doorOverlaps ⟨0, 0, 10, 0⟩ [⟨5, 3, 5, -3⟩] 6 = [⟨1 / 2, 1 / 2⟩] := by
      norm_num [doorOverlaps, pointOnSegment, projectParam, List.filterMap_cons]
    unfold splitWallForDoors
    rw [h1]
    have h2 : sortIvs [⟨1 / 2, 1 / 2⟩] = [⟨1 / 2, 1 / 2⟩] := by simp [sortIvs]
    have h3 : mergeIvs [⟨1 / 2, 1 / 2⟩] = [⟨1 / 2, 1 / 2⟩] := by simp [mergeIvs, mergeLoop]
    simp only [h2, h3, List.isEmpty_cons, Bool.false_eq_true, if_false]
    norm_num [emitGaps]
  · have e1 : lengthE ⟨0, 0, 5, 0⟩ = 5 := by
      unfold lengthE
      rw [show len2E ⟨0, 0, 5, 0⟩ = 25 by norm_num [len2E]]
      exact sqrt_eval 25 5 (by norm_num) (by norm_num)
    have e2 : lengthE ⟨5, 0, 10, 0⟩ = 5 := by
      unfold lengthE
      rw [show len2E ⟨5, 0, 10, 0⟩ = 25 by norm_num [len2E]]
      exact sqrt_eval 25 5 (by norm_num) (by norm_num)
    rw [e1, e2]
    norm_num
  · unfold lengthE
    rw [show len2E ⟨0, 0, 10, 0⟩ = 100 by norm_num [len2E]]
    exact sqrt_eval 100 10 (by norm_num) (by norm_num)
  · unfold lengthE
    rw [show len2E ⟨5, 3, 5, -3⟩ = 36 by norm_num [len2E]]
    exact sqrt_eval 36 6 (by norm_num) (by norm_num)
  · norm_num
  · have h1 : doorOverlaps ⟨0, 0, 10, 0⟩ [⟨1 / 200, 0, 1999 / 200, 0⟩] 6 =
        [⟨1 / 2000, 1999 / 2000⟩] := by
      norm_num [doorOverlaps, pointOnSegment, projectParam, List.filterMap_cons]
    unfold splitWallForDoors
    rw [h1]
    have h2 : sortIvs [⟨1 / 2000, 1999 / 2000⟩] = [⟨1 / 2000, 1999 / 2000⟩] := by
      simp [sortIvs]
    have h3 : mergeIvs [⟨1 / 2000, 1999 / 2000⟩] = [⟨1 / 2000, 1999 / 2000⟩] := by
      simp [mergeIvs, mergeLoop]
    simp only [h2, h3, List.isEmpty_cons, Bool.false_eq_true, if_false]
    norm_num [emitGaps]

/-- C2 witness: wall `(0,0)-(10,0)` with the exact door `[t1,t2] = [1/4,1/2]`. -/
theorem splitWall_one_door_witness :
    splitWallForDoors ⟨0, 0, 10, 0⟩ [lerpE ⟨0, 0, 10, 0⟩ (1 / 4) (1 / 2)] 6 =
      [lerpE ⟨0, 0, 10, 0⟩ 0 (1 / 4), lerpE ⟨0, 0, 10, 0⟩ (1 / 2) 1] ∧
    lengthE (lerpE ⟨0, 0, 10, 0⟩ 0 (1 / 4)) + lengthE (lerpE ⟨0, 0, 10, 0⟩ (1 / 2) 1) =
      lengthE ⟨0, 0, 10, 0⟩ - lengthE (lerpE ⟨0, 0, 10, 0⟩ (1 / 4) (1 / 2)) ∧
    |lengthE (lerpE ⟨0, 0, 10, 0⟩ 0 (1 / 4)) + lengthE (lerpE ⟨0, 0, 10, 0⟩ (1 / 2) 1) -
      (lengthE ⟨0, 0, 10, 0⟩ - lengthE (lerpE ⟨0, 0, 10, 0⟩ (1 / 4) (1 / 2)))| ≤
      1 / 1000 * lengthE ⟨0, 0, 10, 0⟩ :=
  splitWall_one_door ⟨0, 0, 10, 0⟩ (1 / 4) (1 / 2) (by norm_num) (by norm_num) (by norm_num)
    (by norm_num)

/-- Ordered, pairwise-disjoint parameter pairs: each pair starts no earlier
than `c`, is strictly increasing, ends by `1`, and the next pair starts no
earlier than the previous end. -/
def ParamChain (c : ℚ) : List (ℚ × ℚ) → Prop
  | [] => True
  | p :: rest => c ≤ p.1 ∧ p.1 < p.2 ∧ p.2 ≤ 1 ∧ ParamChain p.2 rest

/-- Well-formed, ordered door intervals: each interval starts no earlier than
`c`, is ordered, ends by `1`, and the next starts no earlier than the
previous end. -/
def IvChain (c : ℚ) : List Iv → Prop
  | [] => True
  | iv :: rest => c ≤ iv.t1 ∧ iv.t1 ≤ iv.t2 ∧ iv.t2 ≤ 1 ∧ IvChain iv.t2 rest

theorem ParamChain_mono {c c' : ℚ} {ts : List (ℚ × ℚ)} (h : ParamChain c' ts) (hc : c ≤ c') :
    ParamChain c ts := by
  cases ts with
  | nil => trivial
  | cons p rest => exact ⟨le_trans hc h.1, h.2.1, h.2.2⟩

theorem ParamChain_lb {c : ℚ} {ts : List (ℚ × ℚ)} (h : ParamChain c ts) :
    ∀ p ∈ ts, c ≤ p.1 := by
  induction ts generalizing c with
  | nil => intro p hp; cases hp
  | cons q rest ih =>
    obtain ⟨h1, h2, h3, h4⟩ := h
    intro p hp
    rcases List.mem_cons.mp hp with rfl | hp'
    · exact h1
    · have := ih h4 p hp'
      linarith

theorem IvChain_lb {c : ℚ} {ivs : List Iv} (h : IvChain c ivs) :
    ∀ iv ∈ ivs, c ≤ iv.t1 := by
  induction ivs generalizing c with
  | nil => intro iv hm; cases hm
  | cons x rest ih =>
    obtain ⟨h1, h2, h3, h4⟩ := h
    intro iv hm
    rcases List.mem_cons.mp hm with rfl | hm'
    · exact h1
    · have := ih h4 iv hm'
      linarith

/-- Every interval collected by `doorOverlaps` is well formed provided all
matched projection parameters lie within `[0,1]`. -/
theorem doorOverlaps_wf (wall : Edge ℚ) (doors : List (Edge ℚ)) (tol : ℚ)
    (h : ∀ d ∈ doors,
      pointOnSegment d.x1 d.y1 wall.x1 wall.y1 wall.x2 wall.y2 tol = true →
      pointOnSegment d.x2 d.y2 wall.x1 wall.y1 wall.x2 wall.y2 tol = true →
      0 ≤ projectParam d.x1 d.y1 wall.x1 wall.y1 wall.x2 wall.y2 ∧
      projectParam d.x1 d.y1 wall.x1 wall.y1 wall.x2 wall.y2 ≤ 1 ∧
      0 ≤ projectParam d.x2 d.y2 wall.x1 wall.y1 wall.x2 wall.y2 ∧
      projectParam d.x2 d.y2 wall.x1 wall.y1 wall.x2 wall.y2 ≤ 1) :
    ∀ iv ∈ doorOverlaps wall doors tol, 0 ≤ iv.t1 ∧ iv.t1 ≤ iv.t2 ∧ iv.t2 ≤ 1 := by
  intro iv hm
  unfold doorOverlaps at hm
  rw [List.mem_filterMap] at hm
  obtain ⟨d, hd, hfd⟩ := hm
  by_cases hc : (pointOnSegment d.x1 d.y1 wall.x1 wall.y1 wall.x2 wall.y2 tol &&
      pointOnSegment d.x2 d.y2 wall.x1 wall.y1 wall.x2 wall.y2 tol) = true
  · rw [if_pos hc, Option.some.injEq] at hfd
    rw [Bool.and_eq_true] at hc
    obtain ⟨h10, h11, h20, h21⟩ := h d hd hc.1 hc.2
    set t1 := projectParam d.x1 d.y1 wall.x1 wall.y1 wall.x2 wall.y2 with ht1
    set t2 := projectParam d.x2 d.y2 wall.x1 wall.y1 wall.x2 wall.y2 with ht2
    have hlo0 : 0 ≤ (if t1 > t2 then t2 else t1) := by split <;> assumption
    have hlohi : (if t1 > t2 then t2 else t1) ≤ (if t1 > t2 then t1 else t2) := by
      split
      · linarith
      · next hngt => exact le_of_not_lt hngt
    have hhi1 : (if t1 > t2 then t1 else t2) ≤ 1 := by split <;> assumption
    rw [← hfd]
    refine ⟨le_max_left _ _, ?_, min_le_left _ _⟩
    rw [max_eq_right hlo0, min_eq_right hhi1]
    exact hlohi
  · rw [if_neg hc] at hfd
    cases hfd

instance : IsTotal Iv (fun a b => a.t1 ≤ b.t1) :=
  ⟨fun a b => le_total a.t1 b.t1⟩

instance : IsTrans Iv (fun a b => a.t1 ≤ b.t1) :=
  ⟨fun _ _ _ hab hbc => le_trans hab hbc⟩

/-- The merge loop of sorted, well-formed intervals produces an ordered
chain of well-formed intervals. -/
theorem mergeLoop_chain {acc : Iv} {l : List Iv} {c : ℚ}
    (hacc : acc.t1 ≤ acc.t2 ∧ acc.t2 ≤ 1) (hc : c ≤ acc.t1)
    (hmem : ∀ iv ∈ l, acc.t1 ≤ iv.t1 ∧ iv.t1 ≤ iv.t2 ∧ iv.t2 ≤ 1)
    (hsorted : List.Pairwise (fun a b : Iv => a.t1 ≤ b.t1) l) :
    IvChain c (mergeLoop acc l) := by
  induction l generalizing acc c with
  | nil => exact ⟨hc, hacc.1, hacc.2, trivial⟩
  | cons iv rest ih =>
    obtain ⟨hm1, hm12, hm2⟩ := hmem iv (List.mem_cons_self _ _)
    rw [List.pairwise_cons] at hsorted
    obtain ⟨hhead, htail⟩ := hsorted
    unfold mergeLoop
    split
    · refine @ih ⟨acc.t1, max acc.t2 iv.t2⟩ c
        ⟨le_trans hacc.1 (le_max_left _ _), max_le hacc.2 hm2⟩ hc ?_ htail
      intro x hx
      obtain ⟨ha, hb, hd⟩ := hmem x (List.mem_cons_of_mem _ hx)
      exact ⟨le_trans hm1 (hhead x hx), hb, hd⟩
    · next hmerge =>
      push_neg at hmerge
      refine ⟨hc, hacc.1, hacc.2, ?_⟩
      refine @ih iv acc.t2 ⟨hm12, hm2⟩ (by linarith) ?_ htail
      intro x hx
      obtain ⟨ha, hb, hd⟩ := hmem x (List.mem_cons_of_mem _ hx)
      exact ⟨hhead x hx, hb, hd⟩

/-- The merged door ranges of a wall form an ordered chain of well-formed
intervals whenever all matched projection parameters lie within `[0,1]`. -/
theorem mergedOf_chain (wall : Edge ℚ) (doors : List (Edge ℚ)) (tol : ℚ)
    (h : ∀ d ∈ doors,
      pointOnSegment d.x1 d.y1 wall.x1 wall.y1 wall.x2 wall.y2 tol = true →
      pointOnSegment d.x2 d.y2 wall.x1 wall.y1 wall.x2 wall.y2 tol = true →
      0 ≤ projectParam d.x1 d.y1 wall.x1 wall.y1 wall.x2 wall.y2 ∧
      projectParam d.x1 d.y1 wall.x1 wall.y1 wall.x2 wall.y2 ≤ 1 ∧
      0 ≤ projectParam d.x2 d.y2 wall.x1 wall.y1 wall.x2 wall.y2 ∧
      projectParam d.x2 d.y2 wall.x1 wall.y1 wall.x2 wall.y2 ≤ 1) :
    IvChain 0 (mergedOf wall doors tol) := by
  have hwf : ∀ iv ∈ sortIvs (doorOverlaps wall doors tol),
      0 ≤ iv.t1 ∧ iv.t1 ≤ iv.t2 ∧ iv.t2 ≤ 1 := by
    intro iv hm
    exact doorOverlaps_wf wall doors tol h iv
      ((List.mem_insertionSort _).mp hm)
  have hsorted : List.Pairwise (fun a b : Iv => a.t1 ≤ b.t1)
      (sortIvs (doorOverlaps wall doors tol)) :=
    List.sorted_insertionSort _ _
  unfold mergedOf
  cases hs : sortIvs (doorOverlaps wall doors tol) with
  | nil => trivial
  | cons iv rest =>
    rw [hs] at hwf hsorted
    rw [List.pairwise_cons] at hsorted
    obtain ⟨h1, h12, h2⟩ := hwf iv (List.mem_cons_self _ _)
    exact mergeLoop_chain ⟨h12, h2⟩ h1
      (fun x hx => by
        obtain ⟨ha, hb, hd⟩ := hwf x (List.mem_cons_of_mem _ hx)
        exact ⟨hsorted.1 x hx, hb, hd⟩)
      hsorted.2

/-- The gap-emission loop turns an ordered interval chain into ordered,
pairwise-disjoint wall sub-segments avoiding every interval. -/
theorem emitGaps_spec (wall : Edge ℚ) :
    ∀ (ivs : List Iv) (c : ℚ), IvChain c ivs → 0 ≤ c →
    ∃ ts : List (ℚ × ℚ),
      emitGaps wall c ivs = ts.map (fun p => lerpE wall p.1 p.2) ∧
      ParamChain c ts ∧
      ∀ p ∈ ts, ∀ iv ∈ ivs, p.2 ≤ iv.t1 ∨ iv.t2 ≤ p.1 := by
  intro ivs
  induction ivs with
  | nil =>
    intro c hch hc
    by_cases hcl : c < 1 - 1 / 1000
    · refine ⟨[(c, 1)], ?_, ⟨le_refl c, show c < (1 : ℚ) by linarith, le_refl 1, trivial⟩, ?_⟩
      · unfold emitGaps
        rw [if_pos hcl]
        simp only [List.map_cons, List.map_nil, lerpE, List.cons.injEq, Edge.mk.injEq]
        repeat' apply And.intro
        all_goals first | rfl | ring_nf
      · intro p hp iv hiv
        cases hiv
    · refine ⟨[], ?_, trivial, ?_⟩
      · unfold emitGaps
        rw [if_neg hcl]
        rfl
      · intro p hp
        cases hp
  | cons iv rest ih =>
    intro c hch hc
    obtain ⟨h1, h12, h2, hrest⟩ := hch
    obtain ⟨ts', het, hpc, hdisj⟩ := ih iv.t2 hrest (by linarith)
    by_cases hgap : iv.t1 > c + 1 / 1000
    · refine ⟨(c, iv.t1) :: ts', ?_, ?_, ?_⟩
      · unfold emitGaps
        rw [if_pos hgap, het]
        rfl
      · exact ⟨le_refl c, by linarith, by linarith, ParamChain_mono hpc h12⟩
      · intro p hp x hx
        rcases List.mem_cons.mp hp with rfl | hp'
        · rcases List.mem_cons.mp hx with rfl | hx'
          · left
            exact le_refl _
          · left
            have := IvChain_lb hrest x hx'
            simp only
            linarith
        · rcases List.mem_cons.mp hx with rfl | hx'
          · right
            exact ParamChain_lb hpc p hp'
          · exact hdisj p hp' x hx'
    · refine ⟨ts', ?_, ParamChain_mono hpc (by linarith), ?_⟩
      · unfold emitGaps
        rw [if_neg hgap, het]
        rfl
      · intro p hp x hx
        rcases List.mem_cons.mp hx with rfl | hx'
        · right
          exact ParamChain_lb hpc p hp
        · exact hdisj p hp x hx'

/-- C10 (amended): assuming every matched door's projection parameters lie in
`[0,1]` (the source only guarantees the `[-0.01, 1.01]` clamp allowance), the
splitter's output is a list of wall sub-segments `lerp(s)-lerp(e)` whose
parameters form an ordered chain inside `[0,1]`: pairwise non-overlapping, in
strictly increasing order along the wall, and disjoint from the interior of
every merged door interval. -/
theorem splitWall_params (wall : Edge ℚ) (doors : List (Edge ℚ)) (tol : ℚ)
    (h : ∀ d ∈ doors,
      pointOnSegment d.x1 d.y1 wall.x1 wall.y1 wall.x2 wall.y2 tol = true →
      pointOnSegment d.x2 d.y2 wall.x1 wall.y1 wall.x2 wall.y2 tol = true →
      0 ≤ projectParam d.x1 d.y1 wall.x1 wall.y1 wall.x2 wall.y2 ∧
      projectParam d.x1 d.y1 wall.x1 wall.y1 wall.x2 wall.y2 ≤ 1 ∧
      0 ≤ projectParam d.x2 d.y2 wall.x1 wall.y1 wall.x2 wall.y2 ∧
      projectParam d.x2 d.y2 wall.x1 wall.y1 wall.x2 wall.y2 ≤ 1) :
    ∃ ts : List (ℚ × ℚ),
      splitWallForDoors wall doors tol = ts.map (fun p => lerpE wall p.1 p.2) ∧
      ParamChain 0 ts ∧
      ∀ p ∈ ts, ∀ iv ∈ mergedOf wall doors tol, p.2 ≤ iv.t1 ∨ iv.t2 ≤ p.1 := by
  unfold splitWallForDoors
  by_cases hemp : (doorOverlaps wall doors tol).isEmpty = true
  · rw [if_pos hemp]
    have hnil : doorOverlaps wall doors tol = [] := List.isEmpty_iff.mp hemp
    have hmerged : mergedOf wall doors tol = [] := by
      unfold mergedOf
      rw [hnil]
      rfl
    refine ⟨[(0, 1)], ?_, ⟨le_refl 0, by norm_num, le_refl 1, trivial⟩, ?_⟩
    · simp only [List.map_cons, List.map_nil, lerpE, List.cons.injEq]
      refine ⟨?_, trivial⟩
      cases wall
      simp only [Edge.mk.injEq]
      repeat' apply And.intro
      all_goals first | rfl | ring_nf
    · intro p hp iv hiv
      rw [hmerged] at hiv
      cases hiv
  · rw [if_neg hemp]
    obtain ⟨ts, hts, hpc, hdisj⟩ :=
      emitGaps_spec wall (mergedOf wall doors tol) 0 (mergedOf_chain wall doors tol h) le_rfl
    exact ⟨ts, hts, hpc, hdisj⟩

/-- C10 counterexample: the door `(-0.05,0)-(-0.02,0)` projects to
`[-0.005,-0.002]`, inside the `[-0.01,1.01]` clamp allowance but outside
`[0,1]`; the splitter then emits the single sub-segment starting at
`x = -1/50`, i.e. at parameter `t = -0.002 ∉ [0,1]` (every point
`0 + t·10` with `t ∈ [0,1]` has `0 ≤ x ≤ 10`, but `-1/50 < 0`). -/
theorem splitWall_params_cex :
    splitWallForDoors ⟨0, 0, 10, 0⟩ [⟨-1 / 20, 0, -1 / 50, 0⟩] 6 =
      [⟨-1 / 50, 0, 10, 0⟩] ∧ (-1 / 50 : ℚ) < 0 := by
  refine ⟨?_, by norm_num⟩
  have h1 : doorOverlaps ⟨0, 0, 10, 0⟩ [⟨-1 / 20, 0, -1 / 50, 0⟩] 6 =
      [⟨0, -1 / 500⟩] := by
    norm_num [doorOverlaps, pointOnSegment, projectParam, List.filterMap_cons]
  unfold splitWallForDoors
  rw [h1]
  have h2 : sortIvs [⟨0, -1 / 500⟩] = [⟨0, -1 / 500⟩] := by simp [sortIvs]
  have h3 : mergeIvs [⟨0, -1 / 500⟩] = [⟨0, -1 / 500⟩] := by simp [mergeIvs, mergeLoop]
  simp only [h2, h3, List.isEmpty_cons, Bool.false_eq_true, if_false]
  norm_num [emitGaps]

/-- C10 witness: a single door lying exactly on the wall at parameters
`[0.2, 0.4]` satisfies the `[0,1]`-projection hypothesis. -/
theorem splitWall_params_witness :
    ∃ ts : List (ℚ × ℚ),
      splitWallForDoors ⟨0, 0, 10, 0⟩ [⟨2, 0, 4, 0⟩] 6 =
        ts.map (fun p => lerpE ⟨0, 0, 10, 0⟩ p.1 p.2) ∧
      ParamChain 0 ts ∧
      ∀ p ∈ ts, ∀ iv ∈ mergedOf ⟨0, 0, 10, 0⟩ [⟨2, 0, 4, 0⟩] 6,
        p.2 ≤ iv.t1 ∨ iv.t2 ≤ p.1 :=
  splitWall_params ⟨0, 0, 10, 0⟩ [⟨2, 0, 4, 0⟩] 6
    (by
      intro d hd
      rcases List.mem_singleton.mp hd with rfl
      intro h1 h2
      norm_num [projectParam])

/-- JavaScript numbers inside the path mini-parser; `none` models `NaN`
(produced by `parseFloat` on a command letter or past the end of the token
array). -/
abbrev JSNum := Option ℚ

/-- `NaN`-propagating addition. -/
def jadd : JSNum → JSNum → JSNum
  | some a, some b => some (a + b)
  | _, _ => none

/-- `NaN`-propagating subtraction. -/
def jsub : JSNum → JSNum → JSNum
  | some a, some b => some (a - b)
  | _, _ => none

/-- `NaN`-propagating multiplication by an exact rational scalar. -/
def jmulQ (v : JSNum) (q : ℚ) : JSNum :=
  v.map fun a => a * q

/-- `Math.hypot(dx, dy) > 0.5`, compared via squares (`0.5^2 = 1/4`); any
comparison against `NaN` is false. -/
def jFar (dx dy : JSNum) : Bool :=
  match dx, dy with
  | some a, some b => decide (a * a + b * b > 1 / 4)
  | _, _ => false

/-- A token of `_pathToEdges`' tokenizer: a command letter of the class
`[MLAZHVCSQmlahvcsqz]`, or a number matched by `[-+]?[0-9]*\.?[0-9]+`. -/
inductive Token where
  | cmd (c : Char)
  | num (q : ℚ)
deriving DecidableEq, Repr

/-- Membership in the regex character class `[MLAZHVCSQmlahvcsqz]`. -/
def isCmdChar (c : Char) : Bool :=
  c == 'M' || c == 'L' || c == 'A' || c == 'Z' || c == 'H' || c == 'V' || c == 'C' ||
    c == 'S' || c == 'Q' || c == 'm' || c == 'l' || c == 'a' || c == 'h' || c == 'v' ||
    c == 'c' || c == 's' || c == 'q' || c == 'z'

/-- Value of a digit string. -/
def digitsVal (ds : List Char) : ℕ :=
  ds.foldl (fun a c => 10 * a + (c.toNat - '0'.toNat)) 0

/-- The part of the number regex after the optional sign:
`[0-9]*\.?[0-9]+` with greedy integer digits, an optional dot, then
fractional digits; the regex backtracks the dot when no digit follows it
(matching only the integer digits, which must then be nonempty).
Returns the `parseFloat` value and the remaining characters. -/
def matchNumCore (sgn : ℚ) (cs1 : List Char) : Option (ℚ × List Char) :=
  match cs1.dropWhile Char.isDigit with
  | '.' :: cs3 =>
    match cs3.takeWhile Char.isDigit, cs1.takeWhile Char.isDigit with
    | [], [] => none
    | [], _ :: _ =>
      some (sgn * (digitsVal (cs1.takeWhile Char.isDigit) : ℚ), cs1.dropWhile Char.isDigit)
    | f :: fs, _ =>
      some (sgn * ((digitsVal (cs1.takeWhile Char.isDigit) : ℚ) +
          (digitsVal (f :: fs) : ℚ) / (10 : ℚ) ^ (f :: fs).length),
        cs3.dropWhile Char.isDigit)
  | _ =>
    match cs1.takeWhile Char.isDigit with
    | [] => none
    | _ :: _ =>
      some (sgn * (digitsVal (cs1.takeWhile Char.isDigit) : ℚ), cs1.dropWhile Char.isDigit)

/-- Longest match of `[-+]?[0-9]*\.?[0-9]+` at the head of `cs`. -/
def matchNum (cs : List Char) : Option (ℚ × List Char) :=
  match cs with
  | '-' :: rest => matchNumCore (-1) rest
  | '+' :: rest => matchNumCore 1 rest
  | _ => matchNumCore 1 cs

theorem length_dropWhile_lt_of_takeWhile_ne {p : Char → Bool} {l : List Char}
    (h : (l.takeWhile p).length ≠ 0) : (l.dropWhile p).length < l.length := by
  have hsplit : (l.takeWhile p).length + (l.dropWhile p).length = l.length := by
    rw [← List.length_append, List.takeWhile_append_dropWhile]
  omega

theorem length_dropWhile_le (p : Char → Bool) (l : List Char) :
    (l.dropWhile p).length ≤ l.length := by
  have hsplit : (l.takeWhile p).length + (l.dropWhile p).length = l.length := by
    rw [← List.length_append, List.takeWhile_append_dropWhile]
  omega

theorem matchNumCore_lt {sgn : ℚ} {cs1 : List Char} {q : ℚ} {rest : List Char}
    (h : matchNumCore sgn cs1 = some (q, rest)) : rest.length < cs1.length := by
  unfold matchNumCore at h
  split at h
  · next cs3 heq =>
    have hlen2 : ('.' :: cs3).length ≤ cs1.length := by
      rw [← heq]
      exact length_dropWhile_le _ _
    simp only [List.length_cons] at hlen2
    split at h
    · cases h
    · next a l heqf heqi =>
      rw [Option.some.injEq, Prod.mk.injEq] at h
      rw [← h.2]
      refine length_dropWhile_lt_of_takeWhile_ne ?_
      rw [heqi]
      simp
    · next f fs heqf =>
      rw [Option.some.injEq, Prod.mk.injEq] at h
      rw [← h.2]
      have hlt : (cs3.dropWhile Char.isDigit).length < cs3.length := by
        refine length_dropWhile_lt_of_takeWhile_ne ?_
        rw [heqf]
        simp
      omega
  · split at h
    · cases h
    · next a l heqi =>
      rw [Option.some.injEq, Prod.mk.injEq] at h
      rw [← h.2]
      refine length_dropWhile_lt_of_takeWhile_ne ?_
      rw [heqi]
      simp

theorem matchNum_lt {cs : List Char} {q : ℚ} {rest : List Char}
    (h : matchNum cs = some (q, rest)) : rest.length < cs.length := by
  unfold matchNum at h
  split at h
  · have := matchNumCore_lt h
    simp only [List.length_cons]
    omega
  · have := matchNumCore_lt h
    simp only [List.length_cons]
    omega
  · exact matchNumCore_lt h

/-- The tokenizer loop with explicit fuel; every iteration consumes at least
one character (`matchNum_lt`), so fuel equal to the character count makes the
fuel-guarded recursion exhaust the input exactly like the unbounded regex
scan. -/
def tokenizeF : ℕ → List Char → List Token
  | 0, _ => []
  | _, [] => []
  | fuel + 1, c :: cs =>
    if isCmdChar c then Token.cmd c :: tokenizeF fuel cs
    else
      match matchNum (c :: cs) with
      | some (q, rest) => Token.num q :: tokenizeF fuel rest
      | none => tokenizeF fuel cs

/-- The tokenizer: `d.match(/[MLAZHVCSQmlahvcsqz]|[-+]?[0-9]*\.?[0-9]+/g)`,
scanning left to right, skipping characters that start no match. -/
def tokenize (d : List Char) : List Token :=
  tokenizeF d.length d

/-- Fuel irrelevance for the tokenizer: any fuel of at least the character
count gives the same token list. -/
theorem tokenizeF_congr : ∀ (fuel fuel' : ℕ) (cs : List Char),
    cs.length ≤ fuel → cs.length ≤ fuel' → tokenizeF fuel cs = tokenizeF fuel' cs := by
  intro fuel
  induction fuel with
  | zero =>
    intro fuel' cs hf hf'
    have : cs = [] := List.length_eq_zero.mp (Nat.le_zero.mp hf)
    subst this
    cases fuel' <;> rfl
  | succ n ih =>
    intro fuel' cs hf hf'
    cases cs with
    | nil => cases fuel' <;> rfl
    | cons c cs' =>
      cases fuel' with
      | zero => simp at hf'
      | succ m =>
        simp only [List.length_cons] at hf hf'
        simp only [tokenizeF]
        by_cases hc : isCmdChar c = true
        · rw [hc]
          simp only [if_true]
          rw [ih m cs' (by omega) (by omega)]
        · rw [Bool.not_eq_true] at hc
          rw [hc]
          simp only [Bool.false_eq_true, if_false]
          cases hm : matchNum (c :: cs') with
          | none => exact ih m cs' (by omega) (by omega)
          | some p =>
            obtain ⟨q, rest⟩ := p
            have hlt := matchNum_lt hm
            simp only [List.length_cons] at hlt
            show Token.num q :: tokenizeF n rest = Token.num q :: tokenizeF m rest
            rw [ih m rest (by omega) (by omega)]

/-- The parser state: current point and subpath start. -/
structure PState where
  cx : JSNum
  cy : JSNum
  sx : JSNum
  sy : JSNum
deriving DecidableEq, Repr

/-- `num()` is `parseFloat(tokens[i++])`: the `i`-th token after the command
letter, `NaN` when that token is a command letter or past the end. -/
def readAt (ts : List Token) (i : ℕ) : JSNum :=
  match ts.get? i with
  | some (Token.num q) => some q
  | _ => none

/-- The `A`/`a` arc approximation: `steps` straight sub-segments linearly
interpolating the current point to the target point. -/
def arcEdges (cx cy ex ey : JSNum) (steps : ℕ) : List (Edge JSNum) :=
  (List.range steps).map fun s =>
    ⟨jadd cx (jmulQ (jsub ex cx) ((s : ℚ) / (steps : ℚ))),
     jadd cy (jmulQ (jsub ey cy) ((s : ℚ) / (steps : ℚ))),
     jadd cx (jmulQ (jsub ex cx) (((s : ℚ) + 1) / (steps : ℚ))),
     jadd cy (jmulQ (jsub ey cy) (((s : ℚ) + 1) / (steps : ℚ)))⟩

/-- How many argument tokens each recognized command reads with `num()`
(`i` advances by this count; unrecognized commands read nothing). -/
def argCount (c : Char) : ℕ :=
  if c = 'M' ∨ c = 'm' ∨ c = 'L' ∨ c = 'l' then 2
  else if c = 'H' ∨ c = 'h' ∨ c = 'V' ∨ c = 'v' then 1
  else if c = 'A' ∨ c = 'a' then 7
  else 0

/-- One case of the `switch (cmd)` of `_pathToEdges`: the edges emitted and
the state after the command; the tokens its reads consume are dropped by the
loop via `argCount`. -/
def step (c : Char) (ts : List Token) (st : PState) : List (Edge JSNum) × PState :=
  if c = 'M' then
    ([], ⟨readAt ts 0, readAt ts 1, readAt ts 0, readAt ts 1⟩)
  else if c = 'm' then
    ([], ⟨jadd st.cx (readAt ts 0), jadd st.cy (readAt ts 1),
      jadd st.cx (readAt ts 0), jadd st.cy (readAt ts 1)⟩)
  else if c = 'L' then
    ([⟨st.cx, st.cy, readAt ts 0, readAt ts 1⟩],
      ⟨readAt ts 0, readAt ts 1, st.sx, st.sy⟩)
  else if c = 'l' then
    ([⟨st.cx, st.cy, jadd st.cx (readAt ts 0), jadd st.cy (readAt ts 1)⟩],
      ⟨jadd st.cx (readAt ts 0), jadd st.cy (readAt ts 1), st.sx, st.sy⟩)
  else if c = 'H' then
    ([⟨st.cx, st.cy, readAt ts 0, st.cy⟩],
      ⟨readAt ts 0, st.cy, st.sx, st.sy⟩)
  else if c = 'h' then
    ([⟨st.cx, st.cy, jadd st.cx (readAt ts 0), st.cy⟩],
      ⟨jadd st.cx (readAt ts 0), st.cy, st.sx, st.sy⟩)
  else if c = 'V' then
    ([⟨st.cx, st.cy, st.cx, readAt ts 0⟩],
      ⟨st.cx, readAt ts 0, st.sx, st.sy⟩)
  else if c = 'v' then
    ([⟨st.cx, st.cy, st.cx, jadd st.cy (readAt ts 0)⟩],
      ⟨st.cx, jadd st.cy (readAt ts 0), st.sx, st.sy⟩)
  else if c = 'A' then
    (arcEdges st.cx st.cy (readAt ts 5) (readAt ts 6) 8,
      ⟨readAt ts 5, readAt ts 6, st.sx, st.sy⟩)
  else if c = 'a' then
    (arcEdges st.cx st.cy (jadd st.cx (readAt ts 5)) (jadd st.cy (readAt ts 6)) 8,
      ⟨jadd st.cx (readAt ts 5), jadd st.cy (readAt ts 6), st.sx, st.sy⟩)
  else if c = 'Z' ∨ c = 'z' then
    ((if jFar (jsub st.cx st.sx) (jsub st.cy st.sy) then
        [⟨st.cx, st.cy, st.sx, st.sy⟩]
      else []),
      ⟨st.sx, st.sy, st.sx, st.sy⟩)
  else ([], st)

/-- The command loop with explicit fuel; every iteration consumes at least
the command token itself, so fuel equal to the token count exhausts the
input exactly like the unbounded `while (i < tokens.length)` loop. -/
def runPathF : ℕ → List Token → PState → List (Edge JSNum)
  | 0, _, _ => []
  | _, [], _ => []
  | fuel + 1, Token.num _ :: rest, st => runPathF fuel rest st
  | fuel + 1, Token.cmd c :: rest, st =>
    (step c rest st).1 ++ runPathF fuel (rest.drop (argCount c)) (step c rest st).2

/-- The `while (i < tokens.length)` loop of `_pathToEdges`: a number in
command position falls into the `default` case and is skipped. -/
def runPath (ts : List Token) (st : PState) : List (Edge JSNum) :=
  runPathF ts.length ts st

/-- Unconditional one-step equation for the tokenizer, used to evaluate it on
concrete strings. -/
theorem tokenize_cons (c : Char) (cs : List Char) :
    tokenize (c :: cs) =
      if isCmdChar c then Token.cmd c :: tokenize cs
      else
        match matchNum (c :: cs) with
        | some (q, rest) => Token.num q :: tokenize rest
        | none => tokenize cs := by
  unfold tokenize
  simp only [List.length_cons, tokenizeF]
  by_cases hc : isCmdChar c = true
  · rw [hc]
    simp
  · rw [Bool.not_eq_true] at hc
    rw [hc]
    simp only [Bool.false_eq_true, if_false]
    cases hm : matchNum (c :: cs) with
    | none => rfl
    | some p =>
      obtain ⟨q, rest⟩ := p
      have hlt := matchNum_lt hm
      simp only [List.length_cons] at hlt
      show Token.num q :: tokenizeF cs.length rest = Token.num q :: tokenizeF rest.length rest
      rw [tokenizeF_congr cs.length rest.length rest (by omega) le_rfl]

theorem tokenize_nil : tokenize [] = [] := rfl

/-- Fuel irrelevance for the command loop. -/
theorem runPathF_congr : ∀ (fuel fuel' : ℕ) (ts : List Token) (st : PState),
    ts.length ≤ fuel → ts.length ≤ fuel' → runPathF fuel ts st = runPathF fuel' ts st := by
  intro fuel
  induction fuel with
  | zero =>
    intro fuel' ts st hf hf'
    have : ts = [] := List.length_eq_zero.mp (Nat.le_zero.mp hf)
    subst this
    cases fuel' <;> rfl
  | succ n ih =>
    intro fuel' ts st hf hf'
    cases ts with
    | nil => cases fuel' <;> rfl
    | cons t rest =>
      cases fuel' with
      | zero => simp at hf'
      | succ m =>
        simp only [List.length_cons] at hf hf'
        cases t with
        | num q => exact ih m rest st (by omega) (by omega)
        | cmd c =>
          show (step c rest st).1 ++ runPathF n (rest.drop (argCount c)) (step c rest st).2 =
            (step c rest st).1 ++ runPathF m (rest.drop (argCount c)) (step c rest st).2
          rw [ih m (rest.drop (argCount c)) (step c rest st).2
            (by simp only [List.length_drop]; omega) (by simp only [List.length_drop]; omega)]

theorem runPath_nil (st : PState) : runPath [] st = [] := rfl

theorem runPath_cons_num (q : ℚ) (rest : List Token) (st : PState) :
    runPath (Token.num q :: rest) st = runPath rest st := rfl

theorem runPath_cons_cmd (c : Char) (rest : List Token) (st : PState) :
    runPath (Token.cmd c :: rest) st =
      (step c rest st).1 ++ runPath (rest.drop (argCount c)) (step c rest st).2 := by
  unfold runPath
  simp only [List.length_cons, runPathF]
  rw [runPathF_congr rest.length (rest.drop (argCount c)).length (rest.drop (argCount c))
    (step c rest st).2 (by simp only [List.length_drop]; omega) le_rfl]

/-- `_pathToEdges(d)`: tokenize the path string and run the command loop from
the origin (current point and subpath start `(0,0)`). -/
def pathToEdges (d : List Char) : List (Edge JSNum) :=
  runPath (tokenize d) ⟨some 0, some 0, some 0, some 0⟩

/-- `NaN`-propagating division by an exact rational. -/
def jdivQ (v : JSNum) (q : ℚ) : JSNum :=
  v.map fun a => a / q

/-- The `<path>` element handler (lines 854–868): skip when the `d` attribute
is absent/empty (`if (!d) return`) or the parsed edge list is empty
(`if (edges.length === 0) return`); otherwise the data handed to
`processRoom`: the edges and the centroid of the edge midpoints.  (The
`Math.hypot`-based bounding radius is not needed by any claim and is
omitted.) -/
def pathShapeData (d : List Char) : Option (List (Edge JSNum) × JSNum × JSNum) :=
  if d.isEmpty then none
  else
    let edges := pathToEdges d
    if edges.isEmpty then none
    else
      some (edges,
        jdivQ (edges.foldl (fun acc e => jadd acc (jdivQ (jadd e.x1 e.x2) 2)) (some 0))
          (edges.length : ℚ),
        jdivQ (edges.foldl (fun acc e => jadd acc (jdivQ (jadd e.y1 e.y2) 2)) (some 0))
          (edges.length : ℚ))

/-- C6 (amended): a path whose command string yields zero edges is skipped
entirely — no shape record is created, hence no walls, no light placement and
no note binding for it. -/
theorem pathShapeData_empty (d : List Char) (h : pathToEdges d = []) :
    pathShapeData d = none := by
  unfold pathShapeData
  by_cases hd : d.isEmpty = true
  · rw [if_pos hd]
  · rw [if_neg hd]
    simp only [h, List.isEmpty_nil, if_true]

/-- C6 counterexample: the path `"M0,0"` yields zero edges, and the compiler
skips it entirely — it emits no light placement (contradicting the claimed
fallback light at `(0,0)`) and no note binding. -/
theorem pathShapeData_empty_cex :
    pathToEdges "M0,0".toList = [] ∧ pathShapeData "M0,0".toList = none := by
  have h : pathToEdges "M0,0".toList = [] := by
    have htok : tokenize "M0,0".toList = [Token.cmd 'M', Token.num 0, Token.num 0] := by
      simp [tokenize_cons, tokenize_nil, matchNum, matchNumCore, isCmdChar, digitsVal]
    unfold pathToEdges
    rw [htok]
    simp [runPath_cons_cmd, runPath_cons_num, runPath_nil, step, argCount]
  refine ⟨h, ?_⟩
  unfold pathShapeData
  rw [if_neg (by simp)]
  simp only [h, List.isEmpty_nil, if_true]

/-- C6 witness: the zero-edge path `"M0,0"` is skipped. -/
theorem pathShapeData_empty_witness : pathShapeData "M0,0".toList = none :=
  pathShapeData_empty "M0,0".toList (by
    have htok : tokenize "M0,0".toList = [Token.cmd 'M', Token.num 0, Token.num 0] := by
      simp [tokenize_cons, tokenize_nil, matchNum, matchNumCore, isCmdChar, digitsVal]
    unfold pathToEdges
    rw [htok]
    simp [runPath_cons_cmd, runPath_cons_num, runPath_nil, step, argCount])

/-- C7: the triangle path `"M0,0 L10,0 L10,10 Z"` parses to exactly 3 edges
closing back to `(0,0)`; in general `Z` emits a closing edge exactly when the
current point is farther than 0.5 units from the subpath start (the code's
squared comparison agrees with the true Euclidean distance), then resets the
current point to the start. -/
theorem pathToEdges_triangle :
    pathToEdges "M0,0 L10,0 L10,10 Z".toList =
      [⟨some 0, some 0, some 10, some 0⟩, ⟨some 10, some 0, some 10, some 10⟩,
       ⟨some 10, some 10, some 0, some 0⟩] ∧
    (∀ (cx cy sx sy : ℚ) (rest : List Token),
      runPath (Token.cmd 'Z' :: rest) ⟨some cx, some cy, some sx, some sy⟩ =
        (if (cx - sx) * (cx - sx) + (cy - sy) * (cy - sy) > 1 / 4 then
          [⟨some cx, some cy, some sx, some sy⟩]
        else []) ++ runPath rest ⟨some sx, some sy, some sx, some sy⟩) ∧
    (∀ cx cy sx sy : ℚ,
      1 / 4 < (cx - sx) * (cx - sx) + (cy - sy) * (cy - sy) ↔
        1 / 2 < Real.sqrt ((((cx - sx : ℚ)) : ℝ) ^ 2 + (((cy - sy : ℚ)) : ℝ) ^ 2)) := by
  refine ⟨?_, ?_, ?_⟩
  · have htok : tokenize "M0,0 L10,0 L10,10 Z".toList =
        [Token.cmd 'M', Token.num 0, Token.num 0, Token.cmd 'L', Token.num 10, Token.num 0,
         Token.cmd 'L', Token.num 10, Token.num 10, Token.cmd 'Z'] := by
      simp [tokenize_cons, tokenize_nil, matchNum, matchNumCore, isCmdChar, digitsVal]
    unfold pathToEdges
    rw [htok]
    simp [runPath_cons_cmd, runPath_cons_num, runPath_nil, step, argCount, readAt, jadd,
      jsub, jmulQ, jFar]
    norm_num
  · intro cx cy sx sy rest
    rw [runPath_cons_cmd]
    simp [step, argCount, jFar, jsub]
  · intro cx cy sx sy
    have hcast : (((cx - sx : ℚ)) : ℝ) ^ 2 + (((cy - sy : ℚ)) : ℝ) ^ 2 =
        (((cx - sx) ^ 2 + (cy - sy) ^ 2 : ℚ) : ℝ) := by
      push_cast
      ring
    rw [hcast, Real.lt_sqrt (by norm_num : (0 : ℝ) ≤ 1 / 2),
      show ((1 : ℝ) / 2) ^ 2 = (((1 : ℚ) / 4 : ℚ) : ℝ) by norm_num,
      Rat.cast_lt,
      show (cx - sx) * (cx - sx) + (cy - sy) * (cy - sy) =
        (cx - sx) ^ 2 + (cy - sy) ^ 2 from by ring]

/-- The four rectangle edges, clockwise from the top-left corner
(lines 806–811). -/
def rectEdges (x y w h : ℚ) : List (Edge ℚ) :=
  [⟨x, y, x + w, y⟩, ⟨x + w, y, x + w, y + h⟩, ⟨x + w, y + h, x, y + h⟩, ⟨x, y + h, x, y⟩]

/-- Pair up the parsed `points` numbers
(`for (i = 0; i < nums.length - 1; i += 2)`), dropping a trailing unpaired
number. -/
def pairUp : List ℚ → List (ℚ × ℚ)
  | a :: b :: rest => (a, b) :: pairUp rest
  | _ => []

/-- `_polygonToEdges(pointsAttr)` on the parsed numeric list: edges
connecting consecutive points, closing last back to first
(`next = (i + 1) % pts.length`); fewer than 3 points yield no edges. -/
def polygonToEdges (nums : List ℚ) : List (Edge ℚ) :=
  let pts := pairUp nums
  if pts.length < 3 then []
  else
    (List.range pts.length).map fun i =>
      ⟨(pts.getD i (0, 0)).1, (pts.getD i (0, 0)).2,
       (pts.getD ((i + 1) % pts.length) (0, 0)).1,
       (pts.getD ((i + 1) % pts.length) (0, 0)).2⟩

/-- `_circleToEdges(cx, cy, rx, ry, segments)`: the inscribed `segments`-gon
of the ellipse, at angles `2π·i/segments`, with the mathematical `cos`/`sin`
(the exact idealization of `Math.cos`/`Math.sin`). -/
noncomputable def circleToEdges (cx cy rx ry : ℝ) (segments : ℕ) : List (Edge ℝ) :=
  (List.range segments).map fun i : ℕ =>
    ⟨cx + rx * Real.cos (2 * Real.pi * (i : ℝ) / (segments : ℝ)),
     cy + ry * Real.sin (2 * Real.pi * (i : ℝ) / (segments : ℝ)),
     cx + rx * Real.cos (2 * Real.pi * ((i : ℝ) + 1) / (segments : ℝ)),
     cy + ry * Real.sin (2 * Real.pi * ((i : ℝ) + 1) / (segments : ℝ))⟩

/-- A closed loop of edges: every edge's endpoint equals the cyclically next
edge's start point; in particular the last edge ends at the first edge's
start. -/
def ClosedLoop {α : Type} (es : List (Edge α)) : Prop :=
  ∀ (i : ℕ) (h : i < es.length),
    (es.get ⟨i, h⟩).x2 =
      (es.get ⟨(i + 1) % es.length,
        Nat.mod_lt _ (Nat.lt_of_le_of_lt (Nat.zero_le _) h)⟩).x1 ∧
    (es.get ⟨i, h⟩).y2 =
      (es.get ⟨(i + 1) % es.length,
        Nat.mod_lt _ (Nat.lt_of_le_of_lt (Nat.zero_le _) h)⟩).y1

/-- Edges generated as `point i → point (i+1)` over `range n` close into a
loop whenever the point sequence wraps around (`f n = f 0`). -/
theorem ringClosed {α : Type} (f : ℕ → α × α) (n : ℕ) (hf : f n = f 0) :
    ClosedLoop ((List.range n).map fun i =>
      (⟨(f i).1, (f i).2, (f (i + 1)).1, (f (i + 1)).2⟩ : Edge α)) := by
  intro i h
  simp only [List.length_map, List.length_range] at h
  constructor <;>
  · simp only [List.get_eq_getElem, List.getElem_map, List.getElem_range, List.length_map,
      List.length_range]
    rcases Nat.lt_or_ge (i + 1) n with hlt | hge
    · rw [Nat.mod_eq_of_lt hlt]
    · have hin : i + 1 = n := by omega
      rw [hin, Nat.mod_self, hf]

/-- C8 (amended): rectangle, circle and ellipse (at the default 24
segments), and polygon edge lists always form closed loops; path edge lists
need not close (see the counterexample with an open `M`/`L` path). -/
theorem shapes_closed_loop :
    (∀ x y w h : ℚ, ClosedLoop (rectEdges x y w h)) ∧
    (∀ cx cy rx ry : ℝ, ClosedLoop (circleToEdges cx cy rx ry 24)) ∧
    (∀ nums : List ℚ, ClosedLoop (polygonToEdges nums)) := by
  refine ⟨?_, ?_, ?_⟩
  · intro x y w h
    intro i hi
    simp only [rectEdges, List.length_cons, List.length_nil] at hi
    interval_cases i <;> constructor <;> (show _ = _; norm_num [rectEdges])
  · intro cx cy rx ry
    have hmap : circleToEdges cx cy rx ry 24 =
        (List.range 24).map fun i =>
          (⟨((fun j : ℕ => (cx + rx * Real.cos (2 * Real.pi * j / 24),
              cy + ry * Real.sin (2 * Real.pi * j / 24))) i).1,
            ((fun j : ℕ => (cx + rx * Real.cos (2 * Real.pi * j / 24),
              cy + ry * Real.sin (2 * Real.pi * j / 24))) i).2,
            ((fun j : ℕ => (cx + rx * Real.cos (2 * Real.pi * j / 24),
              cy + ry * Real.sin (2 * Real.pi * j / 24))) (i + 1)).1,
            ((fun j : ℕ => (cx + rx * Real.cos (2 * Real.pi * j / 24),
              cy + ry * Real.sin (2 * Real.pi * j / 24))) (i + 1)).2⟩ : Edge ℝ) := by
      unfold circleToEdges
      refine List.map_congr_left ?_
      intro i hi
      simp only [Nat.cast_ofNat, Nat.cast_add, Nat.cast_one]
    rw [hmap]
    refine ringClosed _ 24 ?_
    have h24 : 2 * Real.pi * (24 : ℕ) / 24 = 2 * Real.pi := by
      norm_num
    have h0 : 2 * Real.pi * (0 : ℕ) / 24 = 0 := by
      norm_num
    simp only [h24, h0, Real.cos_two_pi, Real.sin_two_pi, Real.cos_zero, Real.sin_zero]
  · intro nums
    unfold polygonToEdges
    by_cases hlen : (pairUp nums).length < 3
    · rw [if_pos hlen]
      intro i hi
      simp at hi
    · rw [if_neg hlen]
      have hmap : ((List.range (pairUp nums).length).map fun i =>
          (⟨((pairUp nums).getD i (0, 0)).1, ((pairUp nums).getD i (0, 0)).2,
            ((pairUp nums).getD ((i + 1) % (pairUp nums).length) (0, 0)).1,
            ((pairUp nums).getD ((i + 1) % (pairUp nums).length) (0, 0)).2⟩ : Edge ℚ)) =
          (List.range (pairUp nums).length).map fun i =>
            (⟨((fun j : ℕ => (pairUp nums).getD (j % (pairUp nums).length) (0, 0)) i).1,
              ((fun j : ℕ => (pairUp nums).getD (j % (pairUp nums).length) (0, 0)) i).2,
              ((fun j : ℕ => (pairUp nums).getD (j % (pairUp nums).length) (0, 0)) (i + 1)).1,
              ((fun j : ℕ =>
                (pairUp nums).getD (j % (pairUp nums).length) (0, 0)) (i + 1)).2⟩ : Edge ℚ) := by
        refine List.map_congr_left ?_
        intro i hi
        rw [List.mem_range] at hi
        simp only [Nat.mod_eq_of_lt hi]
      rw [hmap]
      refine ringClosed _ _ ?_
      simp only [Nat.mod_self, Nat.zero_mod]

/-- C8 counterexample: the non-degenerate path `"M0,0 L10,0"` produces one
edge, and its edge list is not a closed loop (the endpoint `(10,0)` differs
from the start `(0,0)`). -/
theorem path_open_cex :
    pathToEdges "M0,0 L10,0".toList = [⟨some 0, some 0, some 10, some 0⟩] ∧
    ¬ClosedLoop (pathToEdges "M0,0 L10,0".toList) := by
  have hpe : pathToEdges "M0,0 L10,0".toList = [⟨some 0, some 0, some 10, some 0⟩] := by
    have htok : tokenize "M0,0 L10,0".toList =
        [Token.cmd 'M', Token.num 0, Token.num 0, Token.cmd 'L', Token.num 10, Token.num 0] := by
      simp [tokenize_cons, tokenize_nil, matchNum, matchNumCore, isCmdChar, digitsVal]
    unfold pathToEdges
    rw [htok]
    simp [runPath_cons_cmd, runPath_cons_num, runPath_nil, step, argCount, readAt]
  refine ⟨hpe, ?_⟩
  rw [hpe]
  intro h
  obtain ⟨hx, -⟩ := h 0 (by norm_num)
  simp at hx

/-- A room metadata entry (`outline.rooms[i]`): its identifier (as the
string `String(r.id)`) and its name. -/
structure RoomDef where
  id : String
  name : String
deriving DecidableEq, Repr

/-- The identifier lookup of `processRoom` (lines 775–779):
`roomId && outline.rooms.find(r => String(r.id) === String(roomId))`; an
absent attribute (`none`) or the empty string (falsy in JS) skips the
lookup. -/
def idLookup (rooms : List RoomDef) (roomId : Option String) : Option RoomDef :=
  match roomId with
  | some rid => if rid = "" then none else rooms.find? fun r => r.id == rid
  | none => none

/-- The binding step of `processRoom` (lines 775–783): identifier match
first, else the positional fallback `rooms[roomIndex]`, incrementing
`roomIndex` only when that entry exists. -/
def bindRoom (rooms : List RoomDef) (roomId : Option String) (idx : ℕ) :
    Option RoomDef × ℕ :=
  match idLookup rooms roomId with
  | some r => (some r, idx)
  | none => (rooms.get? idx, if (rooms.get? idx).isSome then idx + 1 else idx)

/-- The bindings produced for a sequence of shapes in encounter order,
threading the shared mutable `roomIndex`. -/
def bindRooms (rooms : List RoomDef) : List (Option String) → ℕ → List (Option RoomDef)
  | [], _ => []
  | rid :: rest, idx =>
    (bindRoom rooms rid idx).1 :: bindRooms rooms rest (bindRoom rooms rid idx).2

/-- How many of the given shapes fall back to positional matching (no
identifier match). -/
def fbCount (rooms : List RoomDef) (rids : List (Option String)) : ℕ :=
  (rids.filter fun rid => (idLookup rooms rid).isNone).length

/-- Closed form of the binding loop: the `i`-th shape binds to its
identifier match if any, else to `rooms[idx + k]` where `k` counts the
earlier shapes that also fell back positionally. -/
theorem bindRooms_get? (rooms : List RoomDef) :
    ∀ (rids : List (Option String)) (idx i : ℕ),
    (bindRooms rooms rids idx).get? i =
      (rids.get? i).map fun rid =>
        match idLookup rooms rid with
        | some r => some r
        | none => rooms.get? (idx + fbCount rooms (rids.take i)) := by
  intro rids
  induction rids with
  | nil =>
    intro idx i
    simp [bindRooms]
  | cons rid rest ih =>
    intro idx i
    cases i with
    | zero =>
      simp only [bindRooms, List.get?_cons_zero, List.take_zero, Option.map_some']
      unfold bindRoom
      cases hl : idLookup rooms rid with
      | some r => simp [hl]
      | none => simp [hl, fbCount]
    | succ n =>
      simp only [bindRooms, List.get?_cons_succ, List.take_succ_cons]
      rw [ih (bindRoom rooms rid idx).2 n]
      cases hro : rest.get? n with
      | none => simp
      | some a =>
        simp only [Option.map_some']
        congr 1
        cases ha : idLookup rooms a with
        | some r => simp [ha]
        | none =>
          simp only [ha]
          unfold bindRoom fbCount
          cases hl : idLookup rooms rid with
          | some r =>
            simp [hl, List.filter_cons]
          | none =>
            cases hg : rooms.get? idx with
            | some r =>
              simp only [hl, hg, Option.isSome_some, if_true, List.filter_cons,
                Option.isNone_none, List.length_cons]
              congr 1
              omega
            | none =>
              simp only [hl, hg, Option.isSome_none, Bool.false_eq_true, if_false,
                List.filter_cons, Option.isNone_none, List.length_cons]
              have hlen : rooms.length ≤ idx := List.get?_eq_none.mp hg
              rw [List.get?_eq_none.mpr (by omega), List.get?_eq_none.mpr (by omega)]

/-- The output transform: per-axis scale derived from the viewBox and the
scene offset (`scaleX/scaleY/offsetX/offsetY`). -/
structure Xform where
  sx : ℚ
  sy : ℚ
  ox : ℚ
  oy : ℚ
deriving DecidableEq, Repr

/-- Apply the transform to both endpoints of an edge. -/
def scaleEdge (t : Xform) (e : Edge ℚ) : Edge ℚ :=
  ⟨e.x1 * t.sx + t.ox, e.y1 * t.sy + t.oy, e.x2 * t.sx + t.ox, e.y2 * t.sy + t.oy⟩

/-- A placeholder light record: position and `dim`/`bright` radii (color and
alpha are constants in the source). -/
structure Light where
  x : ℚ
  y : ℚ
  dim : ℚ
  bright : ℚ
deriving DecidableEq, Repr

/-- A journal-entry intent queued by `processRoom` (name and scaled centroid,
the `_c` coordinates); STEP 3 creates one journal and one note per intent. -/
structure JournalIntent where
  name : String
  cx : ℚ
  cy : ℚ
deriving DecidableEq, Repr

/-- `roomDef.name || "Unknown Room"` (the empty string is falsy). -/
def journalName (r : RoomDef) : String :=
  if r.name = "" then "Unknown Room" else r.name

/-- A normalized shape as handed to `processRoom`: outdoor flag
(`data-outdoor === "true"`), the `data-room-id` attribute, native-space
edges, centroid and bounding radius. -/
structure ShapeIn where
  outdoor : Bool
  roomId : Option String
  edges : List (Edge ℚ)
  cx : ℚ
  cy : ℚ
  radius : ℚ
deriving DecidableEq, Repr

/-- What one `processRoom` call contributes to the output arrays. -/
structure RoomOut where
  walls : List (Edge ℚ)
  lights : List Light
  journals : List JournalIntent
deriving DecidableEq, Repr

/-- `processRoom` (lines 741–796): wall sub-segments (each scaled edge split
around the doors) unless the shape is outdoor; one placeholder light at the
scaled centroid sized from the scaled radius; and a journal-entry intent
when a metadata entry is matched. -/
def processRoom (doors : List (Edge ℚ)) (t : Xform) (rooms : List RoomDef)
    (sh : ShapeIn) (idx : ℕ) : RoomOut × ℕ :=
  let walls :=
    if sh.outdoor then []
    else (sh.edges.map fun e => splitWallForDoors (scaleEdge t e) doors 6).flatten
  let sCx := sh.cx * t.sx + t.ox
  let sCy := sh.cy * t.sy + t.oy
  let sR := sh.radius * max t.sx t.sy
  let bound := bindRoom rooms sh.roomId idx
  ({ walls := walls
     lights := [⟨sCx, sCy, sR * 2, sR⟩]
     journals :=
       match bound.1 with
       | some r => [⟨journalName r, sCx, sCy⟩]
       | none => [] }, bound.2)

/-- C5: a shape flagged outdoor yields zero wall segments regardless of its
geometry, exactly one light at its transformed centroid (sized from its
bounding radius), and exactly one note binding when a metadata entry is
matched — none otherwise. -/
theorem processRoom_outdoor (doors : List (Edge ℚ)) (t : Xform) (rooms : List RoomDef)
    (sh : ShapeIn) (idx : ℕ) (h : sh.outdoor = true) :
    (processRoom doors t rooms sh idx).1.walls = [] ∧
    (processRoom doors t rooms sh idx).1.lights =
      [⟨sh.cx * t.sx + t.ox, sh.cy * t.sy + t.oy,
        sh.radius * max t.sx t.sy * 2, sh.radius * max t.sx t.sy⟩] ∧
    (∀ r, (bindRoom rooms sh.roomId idx).1 = some r →
      (processRoom doors t rooms sh idx).1.journals =
        [⟨journalName r, sh.cx * t.sx + t.ox, sh.cy * t.sy + t.oy⟩]) ∧
    ((bindRoom rooms sh.roomId idx).1 = none →
      (processRoom doors t rooms sh idx).1.journals = []) := by
  refine ⟨?_, ?_, ?_, ?_⟩
  · simp [processRoom, h]
  · simp [processRoom]
  · intro r hr
    simp [processRoom, hr]
  · intro hr
    simp [processRoom, hr]

/-- C5 witness: a concrete outdoor shape with a matched metadata entry. -/
theorem processRoom_outdoor_witness :
    (processRoom [] ⟨1, 1, 0, 0⟩ [⟨"1", "A"⟩]
        ⟨true, none, [⟨0, 0, 10, 0⟩], 5, 5, 5⟩ 0).1.walls = [] ∧
    (processRoom [] ⟨1, 1, 0, 0⟩ [⟨"1", "A"⟩]
        ⟨true, none, [⟨0, 0, 10, 0⟩], 5, 5, 5⟩ 0).1.lights =
      [⟨5 * 1 + 0, 5 * 1 + 0, 5 * max 1 1 * 2, 5 * max 1 1⟩] ∧
    (∀ r, (bindRoom [⟨"1", "A"⟩] none 0).1 = some r →
      (processRoom [] ⟨1, 1, 0, 0⟩ [⟨"1", "A"⟩]
          ⟨true, none, [⟨0, 0, 10, 0⟩], 5, 5, 5⟩ 0).1.journals =
        [⟨journalName r, 5 * 1 + 0, 5 * 1 + 0⟩]) ∧
    ((bindRoom [⟨"1", "A"⟩] none 0).1 = none →
      (processRoom [] ⟨1, 1, 0, 0⟩ [⟨"1", "A"⟩]
          ⟨true, none, [⟨0, 0, 10, 0⟩], 5, 5, 5⟩ 0).1.journals = []) :=
  processRoom_outdoor [] ⟨1, 1, 0, 0⟩ [⟨"1", "A"⟩]
    ⟨true, none, [⟨0, 0, 10, 0⟩], 5, 5, 5⟩ 0 rfl

/-- C4 (amended): a shape with an identifier match binds to the first
metadata entry with a string-equal id; a shape with no identifier match
binds to `rooms[idx + k]` where `k` counts only the earlier shapes that also
fell back positionally — identifier matches do not consume positional
entries; shapes for which that entry does not exist get no binding, while
their walls and light are produced independently of the binding outcome. -/
theorem roomBinding_spec :
    (∀ (rooms : List RoomDef) (rids : List (Option String)) (idx i : ℕ),
      (bindRooms rooms rids idx).get? i =
        (rids.get? i).map fun rid =>
          match idLookup rooms rid with
          | some r => some r
          | none => rooms.get? (idx + fbCount rooms (rids.take i))) ∧
    (∀ (doors : List (Edge ℚ)) (t : Xform) (rooms : List RoomDef) (sh : ShapeIn) (idx : ℕ),
      (processRoom doors t rooms sh idx).1.lights.length = 1 ∧
      (processRoom doors t rooms sh idx).1.walls =
        (processRoom doors t rooms
          ⟨sh.outdoor, none, sh.edges, sh.cx, sh.cy, sh.radius⟩ idx).1.walls ∧
      (processRoom doors t rooms sh idx).1.journals.length =
        (if ((bindRoom rooms sh.roomId idx).1).isSome then 1 else 0)) := by
  refine ⟨bindRooms_get?, ?_⟩
  intro doors t rooms sh idx
  refine ⟨by simp [processRoom], by simp [processRoom], ?_⟩
  cases hb : (bindRoom rooms sh.roomId idx).1 with
  | some r => simp [processRoom, hb]
  | none => simp [processRoom, hb]

/-- C4 counterexample: metadata `A` (id "1") and `B` (id "2"); the first
shape matches `A` by identifier, the second has no identifier.  The claim
predicts the second shape binds to the first entry *not yet consumed by any
earlier binding*, i.e. `B`; the code binds it to `rooms[0] = A` again,
because identifier matches do not advance the positional index. -/
theorem roomBinding_cex :
    bindRooms [⟨"1", "A"⟩, ⟨"2", "B"⟩] [some "1", none] 0 =
      [some ⟨"1", "A"⟩, some ⟨"1", "A"⟩] ∧
    (⟨"1", "A"⟩ : RoomDef) ≠ ⟨"2", "B"⟩ := by
  constructor
  · rfl
  · simp

/-- A `<line>` door element, with `Number(attr) || 0` already applied. -/
structure LineEl where
  lx1 : ℚ
  ly1 : ℚ
  lx2 : ℚ
  ly2 : ℚ
deriving DecidableEq, Repr

/-- A `<rect>` room element. -/
structure RectEl where
  x : ℚ
  y : ℚ
  w : ℚ
  h : ℚ
  outdoor : Bool
  roomId : Option String
deriving DecidableEq, Repr

/-- A `<circle>` room element. -/
structure CircleEl where
  cx : ℚ
  cy : ℚ
  r : ℚ
  outdoor : Bool
  roomId : Option String
deriving DecidableEq, Repr

/-- An `<ellipse>` room element. -/
structure EllipseEl where
  cx : ℚ
  cy : ℚ
  rx : ℚ
  ry : ℚ
  outdoor : Bool
  roomId : Option String
deriving DecidableEq, Repr

/-- A `<polygon>` room element, with its `points` attribute already parsed
into numbers (`.split(/[\s,]+/).map(Number)`). -/
structure PolyEl where
  pts : List ℚ
  outdoor : Bool
  roomId : Option String
deriving DecidableEq, Repr

/-- A `<path>` room element (the `d` attribute; `[]` models a missing or
empty attribute, both falsy). -/
structure PathEl where
  d : List Char
  outdoor : Bool
  roomId : Option String
deriving DecidableEq, Repr

/-- The parsed vector layout: the SVG's element lists in document order. -/
structure Svg where
  lines : List LineEl
  rects : List RectEl
  circles : List CircleEl
  ellipses : List EllipseEl
  polys : List PolyEl
  paths : List PathEl
deriving Repr

/-- STEP 1 (lines 717–726): each `<line>` becomes a door segment in output
space; zero-length segments (after scaling) are dropped. -/
def doorsOf (t : Xform) (lines : List LineEl) : List (Edge ℚ) :=
  lines.filterMap fun l =>
    let e := scaleEdge t ⟨l.lx1, l.ly1, l.lx2, l.ly2⟩
    if e.x1 = e.x2 ∧ e.y1 = e.y2 then none else some e

/-- Rectangle normalization (lines 799–813): skip when `w` or `h` is 0;
four edges, centroid at the center, bounding radius `max(w,h)/2`. -/
def rectShape (r : RectEl) : Option ShapeIn :=
  if r.w = 0 ∨ r.h = 0 then none
  else some ⟨r.outdoor, r.roomId, rectEdges r.x r.y r.w r.h,
    r.x + r.w / 2, r.y + r.h / 2, max r.w r.h / 2⟩

/-- Circle normalization (lines 816–823): skip when `r` is 0; tessellated
into 24 edges.  The tessellation (`_circleToEdges`, which uses
`Math.cos`/`Math.sin`; see `circleToEdges` for its exact real-valued model)
is a parameter since its values are irrational. -/
def circleShape (circleTess : ℚ → ℚ → ℚ → ℚ → ℕ → List (Edge ℚ)) (c : CircleEl) :
    Option ShapeIn :=
  if c.r = 0 then none
  else some ⟨c.outdoor, c.roomId, circleTess c.cx c.cy c.r c.r 24, c.cx, c.cy, c.r⟩

/-- Ellipse normalization (lines 826–834): skip when either radius is 0. -/
def ellipseShape (circleTess : ℚ → ℚ → ℚ → ℚ → ℕ → List (Edge ℚ)) (e : EllipseEl) :
    Option ShapeIn :=
  if e.rx = 0 ∨ e.ry = 0 then none
  else some ⟨e.outdoor, e.roomId, circleTess e.cx e.cy e.rx e.ry 24,
    e.cx, e.cy, max e.rx e.ry⟩

/-- Polygon normalization (lines 837–851): skip when no edges; centroid is
the mean of the points, bounding radius the largest `Math.hypot` distance
from the centroid to an edge start (`hyp` abstracts `Math.hypot`, whose
values are irrational). -/
def polyShape (hyp : ℚ → ℚ → ℚ) (p : PolyEl) : Option ShapeIn :=
  let edges := polygonToEdges p.pts
  if edges.isEmpty then none
  else
    let prs := pairUp p.pts
    let cx := (prs.foldl (fun a q => a + q.1) 0) / (prs.length : ℚ)
    let cy := (prs.foldl (fun a q => a + q.2) 0) / (prs.length : ℚ)
    some ⟨p.outdoor, p.roomId, edges, cx, cy,
      edges.foldl (fun m e => max m (hyp (e.x1 - cx) (e.y1 - cy))) 0⟩

/-- Path normalization (lines 854–868): skip when the `d` attribute or the
parsed edge list is empty; centroid is the mean of the edge midpoints.  The
tessellation is a parameter (`pathToEdges` above is its exact `NaN`-aware
model; `pathShapeData` mirrors this skip logic at that exact level). -/
def pathShape (pathTess : List Char → List (Edge ℚ)) (hyp : ℚ → ℚ → ℚ) (p : PathEl) :
    Option ShapeIn :=
  if p.d.isEmpty then none
  else
    let edges := pathTess p.d
    if edges.isEmpty then none
    else
      let cx := (edges.foldl (fun a e => a + (e.x1 + e.x2) / 2) 0) / (edges.length : ℚ)
      let cy := (edges.foldl (fun a e => a + (e.y1 + e.y2) / 2) 0) / (edges.length : ℚ)
      some ⟨p.outdoor, p.roomId, edges, cx, cy,
        edges.foldl (fun m e => max m (hyp (e.x1 - cx) (e.y1 - cy))) 0⟩

/-- STEP 2's shape loop: process the shapes in document order, threading the
shared `roomIndex`. -/
def processShapes (doors : List (Edge ℚ)) (t : Xform) (rooms : List RoomDef) :
    List ShapeIn → ℕ → List RoomOut
  | [], _ => []
  | sh :: rest, idx =>
    (processRoom doors t rooms sh idx).1 ::
      processShapes doors t rooms rest (processRoom doors t rooms sh idx).2

/-- An emitted wall record: coordinates plus the door flag (`door: 1` for
door segments, absent for room sub-segments). -/
structure Wall where
  c : Edge ℚ
  door : Bool
deriving DecidableEq, Repr

/-- An emitted note record: position, the id of the created journal entry,
and its display text (the journal name). -/
structure Note where
  x : ℚ
  y : ℚ
  entryId : String
  text : String
deriving DecidableEq, Repr

/-- The three arrays the compiler hands to the scene host. -/
structure Output where
  walls : List Wall
  lights : List Light
  notes : List Note
deriving DecidableEq, Repr

/-- `_addElementsFromSvgAndState` (lines 676–925) as a pure function from the
parsed layout, room metadata, transform and configuration to the emitted
wall, light and note arrays.  `circleTess`, `pathTess` and `hyp` abstract the
tessellators and `Math.hypot` (see `circleToEdges`, `pathToEdges`); `ids`
models the journal-entry identifiers assigned by the external document store
(`JournalEntry.create`) in creation order.  Walls are doors first, then the
room sub-segments in shape order; when wall generation is disabled the wall
array is not emitted. -/
def compile (circleTess : ℚ → ℚ → ℚ → ℚ → ℕ → List (Edge ℚ))
    (pathTess : List Char → List (Edge ℚ)) (hyp : ℚ → ℚ → ℚ)
    (svg : Svg) (rooms : List RoomDef) (t : Xform) (genWalls : Bool)
    (ids : ℕ → String) : Output :=
  let doors := doorsOf t svg.lines
  let shapes :=
    svg.rects.filterMap rectShape ++
    svg.circles.filterMap (circleShape circleTess) ++
    svg.ellipses.filterMap (ellipseShape circleTess) ++
    svg.polys.filterMap (polyShape hyp) ++
    svg.paths.filterMap (pathShape pathTess hyp)
  let outs := processShapes doors t rooms shapes 0
  let wallsData :=
    doors.map (fun e => Wall.mk e true) ++
      ((outs.map RoomOut.walls).flatten.map fun e => Wall.mk e false)
  let journals := (outs.map RoomOut.journals).flatten
  { walls := if genWalls then wallsData else []
    lights := (outs.map RoomOut.lights).flatten
    notes := journals.enum.map fun p => ⟨p.2.cx, p.2.cy, ids p.1, p.2.name⟩ }

/-- C9 (amended): for fixed vector layout, room metadata, transform and
configuration, the wall and light arrays are uniquely determined — identical
across runs, independent of the journal-id assignment — and the note array
is identical up to its `entryId` fields, which come from the external
journal-entry allocator. -/
theorem compile_deterministic (circleTess : ℚ → ℚ → ℚ → ℚ → ℕ → List (Edge ℚ))
    (pathTess : List Char → List (Edge ℚ)) (hyp : ℚ → ℚ → ℚ)
    (svg : Svg) (rooms : List RoomDef) (t : Xform) (genWalls : Bool)
    (ids1 ids2 : ℕ → String) :
    (compile circleTess pathTess hyp svg rooms t genWalls ids1).walls =
      (compile circleTess pathTess hyp svg rooms t genWalls ids2).walls ∧
    (compile circleTess pathTess hyp svg rooms t genWalls ids1).lights =
      (compile circleTess pathTess hyp svg rooms t genWalls ids2).lights ∧
    (compile circleTess pathTess hyp svg rooms t genWalls ids1).notes.map
        (fun n => (n.x, n.y, n.text)) =
      (compile circleTess pathTess hyp svg rooms t genWalls ids2).notes.map
        (fun n => (n.x, n.y, n.text)) := by
  refine ⟨rfl, rfl, ?_⟩
  simp only [compile, List.map_map]
  refine List.map_congr_left ?_
  intro p hp
  rfl

/-- C9 counterexample: one rectangle room and one metadata entry; two runs
on identical layout, metadata, transform and configuration, differing only
in the journal id assigned by the external document store, produce note
arrays differing in `entryId` ("J1" vs "J2") — the outputs are not
byte-identical. -/
theorem compile_cex :
    (compile (fun _ _ _ _ _ => []) (fun _ => []) (fun _ _ => 0)
        ⟨[], [⟨0, 0, 10, 10, false, none⟩], [], [], [], []⟩ [⟨"1", "A"⟩] ⟨1, 1, 0, 0⟩ true
        (fun _ => "J1")).notes = [⟨5, 5, "J1", "A"⟩] ∧
    (compile (fun _ _ _ _ _ => []) (fun _ => []) (fun _ _ => 0)
        ⟨[], [⟨0, 0, 10, 10, false, none⟩], [], [], [], []⟩ [⟨"1", "A"⟩] ⟨1, 1, 0, 0⟩ true
        (fun _ => "J2")).notes = [⟨5, 5, "J2", "A"⟩] ∧
    compile (fun _ _ _ _ _ => []) (fun _ => []) (fun _ _ => 0)
        ⟨[], [⟨0, 0, 10, 10, false, none⟩], [], [], [], []⟩ [⟨"1", "A"⟩] ⟨1, 1, 0, 0⟩ true
        (fun _ => "J1") ≠
      compile (fun _ _ _ _ _ => []) (fun _ => []) (fun _ _ => 0)
        ⟨[], [⟨0, 0, 10, 10, false, none⟩], [], [], [], []⟩ [⟨"1", "A"⟩] ⟨1, 1, 0, 0⟩ true
        (fun _ => "J2") := by
  have h1 : (compile (fun _ _ _ _ _ => []) (fun _ => []) (fun _ _ => 0)
      ⟨[], [⟨0, 0, 10, 10, false, none⟩], [], [], [], []⟩ [⟨"1", "A"⟩] ⟨1, 1, 0, 0⟩ true
      (fun _ => "J1")).notes = [⟨5, 5, "J1", "A"⟩] := by
    norm_num [compile, doorsOf, rectShape, processShapes, processRoom, bindRoom, idLookup,
      journalName, List.enum]
    intro hs
    simp at hs
  have h2 : (compile (fun _ _ _ _ _ => []) (fun _ => []) (fun _ _ => 0)
      ⟨[], [⟨0, 0, 10, 10, false, none⟩], [], [], [], []⟩ [⟨"1", "A"⟩] ⟨1, 1, 0, 0⟩ true
      (fun _ => "J2")).notes = [⟨5, 5, "J2", "A"⟩] := by
    norm_num [compile, doorsOf, rectShape, processShapes, processRoom, bindRoom, idLookup,
      journalName, List.enum]
    intro hs
    simp at hs
  refine ⟨h1, h2, ?_⟩
  intro h
  have hn := congrArg Output.notes h
  rw [h1, h2] at hn
  simp at hn

end SceneBuilder
